import Mathlib

/-!
# Image kernels of `A1/ass1_omp.cpp`

A shallow embedding of the image representation and of the kernels
`rectify`, `pool`, `convolve` and `symmetric_difference`, of the parts of
`main` that choose the output size and the thread count, and of the
byte-wise `rectify` of `A1/rectify_omp.c`, followed by the properties proved
about them.

Conventions of the embedding.

* `unsigned char` and `unsigned int` values are natural numbers; arithmetic
  on `unsigned int` is reduced modulo `2 ^ 32` where the source computes it,
  and a value stored into an `unsigned char` is reduced modulo `256`.
* An image buffer is a list of pixels.  `Image.get` computes the offset the
  source's pointer arithmetic computes; dereferencing it is `Image.load` or
  `Image.store`, which give `none` when the offset lies outside the buffer
  (undefined behaviour in the source).
* A `for` loop over `0 .. n-1` is `forLoop n body`, threading the state the
  loop body mutates.  The OpenMP pragma only distributes the iterations of
  the outer loop over threads; the kernels are embedded with their
  sequential meaning, and `KernelCall.runSlices` and
  `KernelCall.runSchedule` execute the same loop bodies in the order a split
  of the columns among workers, or any interleaving of the loop bodies,
  gives.
* The images passed to a kernel are distinct objects, as in `main`: a store
  to the output does not change an input.
* A `float` is a value of `F32`, a model of IEEE-754 binary32: every
  multiplication and every addition of `convolve` is rounded to the nearest
  binary32 value, ties to even, on its own (no fused multiply-add, no
  intermediate extended precision).
-/

namespace ECSE420

/-! ## Data model -/

/-- Modulus of `unsigned int` arithmetic. -/
def UINT_MOD : Nat := 2 ^ 32

/-- The `struct Pixel`: four `unsigned char` channels. -/
structure Pixel where
  R : Nat
  G : Nat
  B : Nat
  A : Nat
deriving DecidableEq, Repr, Inhabited

/-- Every channel of the pixel is a value an `unsigned char` can hold. -/
def Pixel.wf (p : Pixel) : Prop :=
  p.R ≤ 255 ∧ p.G ≤ 255 ∧ p.B ≤ 255 ∧ p.A ≤ 255

instance (p : Pixel) : Decidable p.wf := by
  unfold Pixel.wf; infer_instance

/-- The `class Image`: `width`, `height` and the buffer `raw`. -/
structure Image where
  width : Nat
  height : Nat
  raw : List Pixel
deriving DecidableEq, Repr

/-- The buffer holds `width * height` pixels and that product is
representable as an `unsigned int`, as after `new Pixel[width * height]`
without wrap-around. -/
def Image.wf (img : Image) : Prop :=
  img.width * img.height < UINT_MOD ∧ img.raw.length = img.width * img.height

instance (img : Image) : Decidable img.wf := by
  unfold Image.wf; infer_instance

/-- Every pixel of the buffer has channels in `0 .. 255`. -/
def Image.pixelsOk (img : Image) : Prop :=
  ∀ p ∈ img.raw, p.wf

instance (img : Image) : Decidable img.pixelsOk := by
  unfold Image.pixelsOk; infer_instance

/-- Offset computed by `Image::get(x, y)`: `x + y * width` in `unsigned int`
arithmetic.  The source returns the pointer `&raw[x + y * width]`. -/
def Image.get (img : Image) (x y : Nat) : Nat :=
  (x + y * img.width) % UINT_MOD

/-- Reading through the pointer returned by `Image::get`. -/
def Image.load (img : Image) (idx : Nat) : Option Pixel :=
  img.raw[idx]?

/-- Writing a whole pixel through the pointer returned by `Image::get`. -/
def Image.store (img : Image) (idx : Nat) (p : Pixel) : Option Image :=
  if idx < img.raw.length then
    some { width := img.width, height := img.height, raw := img.raw.set idx p }
  else
    none

/-- The loop `for (unsigned int i = 0; i < n; i++) body`, with the mutated
state passed along; the loop stops with `none` when an iteration does. -/
def forLoop {σ : Type} (n : Nat) (body : Nat → σ → Option σ) (s : σ) : Option σ :=
  (List.range n).foldlM (fun st i => body i st) s

/-- The template `clamp(val, min, max)`. -/
def clamp {T : Type} [LT T] [DecidableRel (fun a b : T => a < b)] (val lo hi : T) : T :=
  if val < lo then lo
  else if val > hi then hi
  else val

/-- Conversion of an integer to `unsigned char`. -/
def toUChar (z : Int) : Nat :=
  (z % 256).toNat

/-- The rounding of the C library's `lround` on an exact rational: nearest
integer, halves away from zero. -/
def lround (x : ℚ) : Int :=
  if 0 ≤ x then ⌊x + 1 / 2⌋ else -⌊-x + 1 / 2⌋

/-! ## The type `float` -/

/-- A value of the type `float`, IEEE-754 binary32. Every finite binary32
value is an integer multiple of `2 ^ -149`, the smallest positive value, and
`fin n` is the value `n * 2 ^ -149`. The sign of a zero is not recorded: it
changes neither a comparison nor the result of `lround`. The operations
below return values with at most 24 significant bits, below `2 ^ 128` in
magnitude; a weight `fin n` stands for a `float` when `n` is of that form. -/
inductive F32 where
  | fin (n : Int)
  | inf (negative : Bool)
  | nan
deriving DecidableEq, Repr

/-- Index of the leading binary digit of `n`, searched with `fuel` steps. -/
def ilog2Fuel : Nat → Nat → Nat
  | 0, _ => 0
  | fuel + 1, n =>
    if n < 2 then 0
    else if 2 ^ 64 ≤ n then ilog2Fuel fuel (n / 2 ^ 64) + 64
    else if 2 ^ 8 ≤ n then ilog2Fuel fuel (n / 2 ^ 8) + 8
    else ilog2Fuel fuel (n / 2) + 1

/-- Index of the leading binary digit of `n`: the `e` with
`2 ^ e ≤ n < 2 ^ (e + 1)`, for `n ≥ 1`. -/
def ilog2 (n : Nat) : Nat :=
  ilog2Fuel n n

/-- The quotient `a / b` rounded to the nearest integer, a tie going to the
even one. -/
def roundNearestEven (a b : Nat) : Nat :=
  if 2 * (a % b) < b then a / b
  else if b < 2 * (a % b) then a / b + 1
  else if (a / b) % 2 = 0 then a / b
  else a / b + 1

/-- Rounding to binary32 of the exact magnitude `num / den` (in units of
`2 ^ -149`) with the sign `negative`, to nearest, ties to even. Binary32
values are spaced by one unit below `2 ^ 24` units and by
`2 ^ (ilog2 q - 23)` units around a magnitude `q` from there on (24
significant bits); a rounded magnitude of `2 ^ 277` units, that is
`2 ^ 128`, or more is an overflow and gives an infinity. -/
def F32.round (negative : Bool) (num den : Nat) : F32 :=
  let e := if num / den < 2 ^ 24 then 0 else ilog2 (num / den) - 23
  let n := roundNearestEven num (den * 2 ^ e) * 2 ^ e
  if n < 2 ^ 139 * 2 ^ 138 then F32.fin (if negative then -(n : Int) else (n : Int))
  else F32.inf negative

/-- Conversion of a non-negative `int` to `float`, as for the promoted
`unsigned char` channel in `p->R * wm[l][k]`. -/
def F32.ofNat (z : Nat) : F32 :=
  F32.round false (z * 2 ^ 149) 1

/-- Multiplication of two `float` values: the exact product, rounded. -/
def F32.mul : F32 → F32 → F32
  | .fin a, .fin b =>
      F32.round (decide (a < 0) != decide (b < 0)) (a.natAbs * b.natAbs) (2 ^ 149)
  | .fin a, .inf s => if a = 0 then .nan else .inf (decide (a < 0) != s)
  | .inf s, .fin b => if b = 0 then .nan else .inf (s != decide (b < 0))
  | .inf s, .inf t => .inf (s != t)
  | _, _ => .nan

/-- Addition of two `float` values: the exact sum, rounded. -/
def F32.add : F32 → F32 → F32
  | .fin a, .fin b => F32.round (decide (a + b < 0)) (a + b).natAbs 1
  | .fin _, .inf s => .inf s
  | .inf s, .fin _ => .inf s
  | .inf s, .inf t => if s = t then .inf s else .nan
  | _, _ => .nan

/-- The comparison `a < b` of two `float` values; false when either is not
a number. -/
def F32.lt : F32 → F32 → Bool
  | .fin a, .fin b => decide (a < b)
  | .fin _, .inf s => !s
  | .inf s, .fin _ => s
  | .inf s, .inf t => s && !t
  | _, _ => false

instance : LT F32 := ⟨fun a b => F32.lt a b = true⟩

instance : DecidableRel (fun a b : F32 => a < b) :=
  fun a b => inferInstanceAs (Decidable (F32.lt a b = true))

/-- The C library's `lround` on a `float`: the nearest integer, halves away
from zero. For an infinity or a value that is not a number the C standard
leaves the result unspecified; 0 is taken here. In `convolve` the argument
has been clamped, so only a value that is not a number can reach that
case. -/
def F32.lround : F32 → Int
  | .fin n =>
    if 0 ≤ n then (2 * n + ((2 ^ 149 : Nat) : Int)) / ((2 ^ 150 : Nat) : Int)
    else -((2 * (-n) + ((2 ^ 149 : Nat) : Int)) / ((2 ^ 150 : Nat) : Int))
  | _ => 0

/-- The `float` whose value is the integer `z`, for `|z| < 2 ^ 24`. -/
def F32.ofInt (z : Int) : F32 :=
  F32.fin (z * ((2 ^ 149 : Nat) : Int))

/-- The exact rational value of a finite `float` (0 for the others). -/
def F32.toRat : F32 → ℚ
  | .fin n => (n : ℚ) / 2 ^ 149
  | _ => 0

/-! ## Kernels -/

/-- The kernel `rectify(input, output, ceiling)`. -/
def rectify (input output : Image) (ceiling : Nat) : Option Image :=
  forLoop output.width (fun i out =>
    forLoop output.height (fun j out => do
      let pi ← input.load (input.get i j)
      out.store (out.get i j)
        { R := clamp pi.R ceiling 255
          G := clamp pi.G ceiling 255
          B := clamp pi.B ceiling 255
          A := 255 }) out) output

/-- The kernel `pool(input, output)`. -/
def pool (input output : Image) : Option Image :=
  forLoop output.width (fun i out =>
    forLoop output.height (fun j out => do
      let p1 ← input.load (input.get (2 * i % UINT_MOD) (2 * j % UINT_MOD))
      let p2 ← input.load (input.get ((2 * i + 1) % UINT_MOD) (2 * j % UINT_MOD))
      let p3 ← input.load (input.get (2 * i % UINT_MOD) ((2 * j + 1) % UINT_MOD))
      let p4 ← input.load (input.get ((2 * i + 1) % UINT_MOD) ((2 * j + 1) % UINT_MOD))
      out.store (out.get i j)
        { R := if p1.R < p2.R then (if p2.R < p3.R then (if p3.R < p4.R then p4.R else p3.R)
                                    else p2.R)
               else p1.R
          G := if p1.G < p2.G then (if p2.G < p3.G then (if p3.G < p4.G then p4.G else p3.G)
                                    else p2.G)
               else p1.G
          B := if p1.B < p2.B then (if p2.B < p3.B then (if p3.B < p4.B then p4.B else p3.B)
                                    else p2.B)
               else p1.B
          A := 255 }) out) output

/-- The accumulation loops of `convolve` for output pixel `(i, j)`: the
`float` variables `rSum`, `gSum`, `bSum` after the two loops over `k` and
`l`. Each `sum += p->c * wm[l][k]` converts the channel to `float`, rounds
the product and rounds the sum. -/
def convolveSums (input : Image) (wm : Nat → Nat → F32) (i j : Nat) :
    Option (F32 × F32 × F32) :=
  forLoop 3 (fun k acc =>
    forLoop 3 (fun l acc => do
      let p ← input.load (input.get ((i + k) % UINT_MOD) ((j + l) % UINT_MOD))
      pure (F32.add acc.1 (F32.mul (F32.ofNat p.R) (wm l k)),
            F32.add acc.2.1 (F32.mul (F32.ofNat p.G) (wm l k)),
            F32.add acc.2.2 (F32.mul (F32.ofNat p.B) (wm l k)))) acc)
    (F32.ofNat 0, F32.ofNat 0, F32.ofNat 0)

/-- The kernel `convolve(input, output, weightmatrix)`; `wm l k` is
`weightmatrix[l][k]`. -/
def convolve (input output : Image) (wm : Nat → Nat → F32) : Option Image :=
  forLoop output.width (fun i out =>
    forLoop output.height (fun j out => do
      let sums ← convolveSums input wm i j
      out.store (out.get i j)
        { R := toUChar (F32.lround (clamp sums.1 (F32.ofNat 0) (F32.ofNat 255)))
          G := toUChar (F32.lround (clamp sums.2.1 (F32.ofNat 0) (F32.ofNat 255)))
          B := toUChar (F32.lround (clamp sums.2.2 (F32.ofNat 0) (F32.ofNat 255)))
          A := 255 }) out) output

/-- The kernel `symmetric_difference(input1, input2, output)`. -/
def symmetric_difference (input1 input2 output : Image) : Option Image :=
  forLoop output.width (fun i out =>
    forLoop output.height (fun j out => do
      let p1 ← input1.load (input1.get i j)
      let p2 ← input2.load (input2.get i j)
      out.store (out.get i j)
        { R := toUChar |(p1.R : Int) - (p2.R : Int)|
          G := toUChar |(p1.G : Int) - (p2.G : Int)|
          B := toUChar |(p1.B : Int) - (p2.B : Int)|
          A := 255 }) out) output

/-! ## Helpers for stating the properties -/

/-- The pixel of `img` at coordinate `(x, y)`, for stating properties; a
default pixel when the coordinate's offset is outside the buffer. -/
def Image.pixelAt (img : Image) (x y : Nat) : Pixel :=
  (img.load (img.get x y)).getD default

/-- The 3x3 weight matrix that is 1 at the centre `[1][1]` and 0 elsewhere. -/
def centreKernel (l k : Nat) : F32 :=
  if l = 1 ∧ k = 1 then F32.ofNat 1 else F32.ofNat 0

/-- The value of the accumulator of `convolve` for output pixel `(i, j)` and
the channel selected by `chan`: starting from 0, for `k = 0, 1, 2` and within
it `l = 0, 1, 2`, the accumulator `s` becomes the rounded sum of `s` and the
rounded product of `input.get(i+k, j+l).c` and `weights[l][k]`. -/
def floatSum (input : Image) (wm : Nat → Nat → F32) (chan : Pixel → Nat) (i j : Nat) : F32 :=
  ([(0, 0), (0, 1), (0, 2), (1, 0), (1, 1), (1, 2), (2, 0), (2, 1), (2, 2)] :
      List (Nat × Nat)).foldl
    (fun s kl =>
      F32.add s (F32.mul (F32.ofNat (chan (input.pixelAt (i + kl.1) (j + kl.2))))
        (wm kl.2 kl.1)))
    (F32.ofNat 0)

/-- The sum of the specification for output pixel `(i, j)` and the channel
selected by `chan`: the sum over `k` and `l` in `0 .. 2` of
`input.get(i+k, j+l).c * weights[l][k]`. -/
def specSum (input : Image) (wm : Nat → Nat → ℚ) (chan : Pixel → Nat) (i j : Nat) : ℚ :=
  ∑ k in Finset.range 3, ∑ l in Finset.range 3,
    (chan (input.pixelAt (i + k) (j + l)) : ℚ) * wm l k

/-- The exact sum of the specification for integer weights `wi`, accumulated
in the order of the loops of `convolve`. -/
def intSum (input : Image) (wi : Nat → Nat → Int) (chan : Pixel → Nat) (i j : Nat) : Int :=
  ([(0, 0), (0, 1), (0, 2), (1, 0), (1, 1), (1, 2), (2, 0), (2, 1), (2, 2)] :
      List (Nat × Nat)).foldl
    (fun s kl => s + (chan (input.pixelAt (i + kl.1) (j + kl.2)) : Int) * wi kl.2 kl.1)
    0

/-- The pixel with channels `r g b a`. -/
def px (r g b a : Nat) : Pixel :=
  { R := r, G := g, B := b, A := a }

/-! ## Small concrete images -/

/-- A 2x2 image; in buffer order the pixels are those at `(0,0)`, `(1,0)`,
`(0,1)`, `(1,1)`. -/
def sampleA : Image :=
  { width := 2, height := 2,
    raw := [px 10 200 50 90, px 5 0 255 0, px 200 127 128 255, px 90 126 3 17] }

/-- A second 2x2 image. -/
def sampleB : Image :=
  { width := 2, height := 2,
    raw := [px 30 200 0 255, px 5 7 1 2, px 0 255 129 40, px 91 26 3 0] }

/-- A 2x2 output buffer with arbitrary previous content. -/
def scratch2x2 : Image :=
  { width := 2, height := 2,
    raw := [px 1 2 3 4, px 5 6 7 8, px 9 10 11 12, px 13 14 15 16] }

/-- Another 2x2 output buffer, with different previous content. -/
def scratch2x2b : Image :=
  { width := 2, height := 2,
    raw := [px 255 0 255 0, px 0 0 0 0, px 300 7 7 7, px 1 1 1 1] }

/-- A 1x1 output buffer with arbitrary previous content. -/
def scratch1x1 : Image :=
  { width := 1, height := 1, raw := [px 1 2 3 4] }

/-- A 3x3 image. -/
def sample3x3 : Image :=
  { width := 3, height := 3,
    raw := [px 1 2 3 4, px 5 6 7 8, px 9 10 11 12,
            px 13 14 15 16, px 77 0 255 100, px 21 22 23 24,
            px 25 26 27 28, px 29 30 31 32, px 33 34 35 36] }

/-- The white pixel `(255, 255, 255, 255)`. -/
def white : Pixel :=
  px 255 255 255 255

/-- The 4x4 image whose pixels are all white. -/
def white4x4 : Image :=
  { width := 4, height := 4, raw := List.replicate 16 white }

/-- A 4x4 output buffer with arbitrary previous content. -/
def scratch4x4 : Image :=
  { width := 4, height := 4, raw := (List.range 16).map (fun n => px n (2 * n) 7 n) }

/-- A 2x2 block whose red values are, in the order `p1 .. p4` of `pool`,
10, 200, 50, 90 (the block of the specification's example). -/
def specBlock : Image :=
  { width := 2, height := 2,
    raw := [px 10 0 0 255, px 200 0 0 255, px 50 0 0 255, px 90 0 0 255] }

/-- A 2x2 block whose red values are, in the order `p1 .. p4` of `pool`,
10, 5, 200, 90. -/
def descendingFirstBlock : Image :=
  { width := 2, height := 2,
    raw := [px 10 0 0 255, px 5 0 0 255, px 200 0 0 255, px 90 0 0 255] }

/-- A 3x3 matrix of integer weights, `weights[l][k] = l + 2 k - 3`. -/
def rampKernel (l k : Nat) : F32 :=
  F32.ofInt ((l : Int) + 2 * (k : Int) - 3)

/-- The `float` nearest to one tenth, `0.1f`: 13421773 / 2 ^ 27. -/
def tenth : F32 :=
  F32.fin ((13421773 * 2 ^ 122 : Nat) : Int)

/-- A 3x3 image whose red values are, in the order in which `convolve`
accumulates them (`k` outer, `l` inner), 6, 6, 6, 2, 1, 6, 8, 9, 1, of sum 45;
every green value is 5 and every blue value is 0. -/
def tenths3x3 : Image :=
  { width := 3, height := 3,
    raw := [px 6 5 0 255, px 2 5 0 255, px 8 5 0 255,
            px 6 5 0 255, px 1 5 0 255, px 9 5 0 255,
            px 6 5 0 255, px 6 5 0 255, px 1 5 0 255] }

/-- An image of `2 ^ 29` black pixels in one row: its `2 ^ 31` bytes are one
more than the largest `int`. -/
def bigBlack : Image :=
  { width := 2 ^ 29, height := 1, raw := List.replicate (2 ^ 29) (px 0 0 0 255) }

/-- A 2x1 image, wider than `scratch1x1`. -/
def wide2x1 : Image :=
  { width := 2, height := 1, raw := [px 100 20 3 0, px 7 8 9 10] }

/-- A 1x1 image. -/
def single1x1 : Image :=
  { width := 1, height := 1, raw := [px 40 50 60 70] }

/-! ## Loop bodies, kernel calls and schedules -/

/-- The body of the loops of `rectify` at output coordinate `(i, j)`. -/
def rectifyCell (input : Image) (ceiling : Nat) (i j : Nat) (out : Image) : Option Image := do
  let pi ← input.load (input.get i j)
  out.store (out.get i j)
    { R := clamp pi.R ceiling 255
      G := clamp pi.G ceiling 255
      B := clamp pi.B ceiling 255
      A := 255 }

/-- The body of the loops of `pool` at output coordinate `(i, j)`. -/
def poolCell (input : Image) (i j : Nat) (out : Image) : Option Image := do
  let p1 ← input.load (input.get (2 * i % UINT_MOD) (2 * j % UINT_MOD))
  let p2 ← input.load (input.get ((2 * i + 1) % UINT_MOD) (2 * j % UINT_MOD))
  let p3 ← input.load (input.get (2 * i % UINT_MOD) ((2 * j + 1) % UINT_MOD))
  let p4 ← input.load (input.get ((2 * i + 1) % UINT_MOD) ((2 * j + 1) % UINT_MOD))
  out.store (out.get i j)
    { R := if p1.R < p2.R then (if p2.R < p3.R then (if p3.R < p4.R then p4.R else p3.R)
                                else p2.R)
           else p1.R
      G := if p1.G < p2.G then (if p2.G < p3.G then (if p3.G < p4.G then p4.G else p3.G)
                                else p2.G)
           else p1.G
      B := if p1.B < p2.B then (if p2.B < p3.B then (if p3.B < p4.B then p4.B else p3.B)
                                else p2.B)
           else p1.B
      A := 255 }

/-- The body of the outer two loops of `convolve` at output coordinate
`(i, j)`. -/
def convolveCell (input : Image) (wm : Nat → Nat → F32) (i j : Nat) (out : Image) :
    Option Image := do
  let sums ← convolveSums input wm i j
  out.store (out.get i j)
    { R := toUChar (F32.lround (clamp sums.1 (F32.ofNat 0) (F32.ofNat 255)))
      G := toUChar (F32.lround (clamp sums.2.1 (F32.ofNat 0) (F32.ofNat 255)))
      B := toUChar (F32.lround (clamp sums.2.2 (F32.ofNat 0) (F32.ofNat 255)))
      A := 255 }

/-- The body of the loops of `symmetric_difference` at output coordinate
`(i, j)`. -/
def symmetricDifferenceCell (input1 input2 : Image) (i j : Nat) (out : Image) :
    Option Image := do
  let p1 ← input1.load (input1.get i j)
  let p2 ← input2.load (input2.get i j)
  out.store (out.get i j)
    { R := toUChar |(p1.R : Int) - (p2.R : Int)|
      G := toUChar |(p1.G : Int) - (p2.G : Int)|
      B := toUChar |(p1.B : Int) - (p2.B : Int)|
      A := 255 }

/-- The value the chain of comparisons of `pool` selects among four channel
values `a b c d` (those of `p1 .. p4`). -/
def poolSelect (a b c d : Nat) : Nat :=
  if a < b then (if b < c then (if c < d then d else c) else b) else a

/-- A call of one of the four kernels: the kernel with its input image(s) and
parameters. The output image is the argument of `run`. -/
inductive KernelCall where
  | rectify (input : Image) (ceiling : Nat)
  | pool (input : Image)
  | convolve (input : Image) (wm : Nat → Nat → F32)
  | symmetric_difference (input1 input2 : Image)

/-- Running the call on an output image: the kernel of the source. -/
def KernelCall.run : KernelCall → Image → Option Image
  | .rectify input ceiling, output => ECSE420.rectify input output ceiling
  | .pool input, output => ECSE420.pool input output
  | .convolve input wm, output => ECSE420.convolve input output wm
  | .symmetric_difference input1 input2, output =>
      ECSE420.symmetric_difference input1 input2 output

/-- The loop body of the call's kernel at output coordinate `(i, j)`. -/
def KernelCall.cell : KernelCall → Nat → Nat → Image → Option Image
  | .rectify input ceiling => rectifyCell input ceiling
  | .pool input => poolCell input
  | .convolve input wm => convolveCell input wm
  | .symmetric_difference input1 input2 => symmetricDifferenceCell input1 input2

/-- The pixel the call's kernel computes for output coordinate `(i, j)`, as a
function of the input image(s) alone. -/
def KernelCall.value : KernelCall → Nat → Nat → Pixel
  | .rectify input ceiling, i, j =>
      { R := clamp (input.pixelAt i j).R ceiling 255
        G := clamp (input.pixelAt i j).G ceiling 255
        B := clamp (input.pixelAt i j).B ceiling 255
        A := 255 }
  | .pool input, i, j =>
      { R := poolSelect (input.pixelAt (2 * i) (2 * j)).R (input.pixelAt (2 * i + 1) (2 * j)).R
               (input.pixelAt (2 * i) (2 * j + 1)).R (input.pixelAt (2 * i + 1) (2 * j + 1)).R
        G := poolSelect (input.pixelAt (2 * i) (2 * j)).G (input.pixelAt (2 * i + 1) (2 * j)).G
               (input.pixelAt (2 * i) (2 * j + 1)).G (input.pixelAt (2 * i + 1) (2 * j + 1)).G
        B := poolSelect (input.pixelAt (2 * i) (2 * j)).B (input.pixelAt (2 * i + 1) (2 * j)).B
               (input.pixelAt (2 * i) (2 * j + 1)).B (input.pixelAt (2 * i + 1) (2 * j + 1)).B
        A := 255 }
  | .convolve input wm, i, j =>
      { R := toUChar (F32.lround
          (clamp (floatSum input wm Pixel.R i j) (F32.ofNat 0) (F32.ofNat 255)))
        G := toUChar (F32.lround
          (clamp (floatSum input wm Pixel.G i j) (F32.ofNat 0) (F32.ofNat 255)))
        B := toUChar (F32.lround
          (clamp (floatSum input wm Pixel.B i j) (F32.ofNat 0) (F32.ofNat 255)))
        A := 255 }
  | .symmetric_difference input1 input2, i, j =>
      { R := toUChar |((input1.pixelAt i j).R : Int) - ((input2.pixelAt i j).R : Int)|
        G := toUChar |((input1.pixelAt i j).G : Int) - ((input2.pixelAt i j).G : Int)|
        B := toUChar |((input1.pixelAt i j).B : Int) - ((input2.pixelAt i j).B : Int)|
        A := 255 }

/-- The output is sized for the call as the specification's table states:
the input's size for `rectify` and `symmetric_difference`, half of it
(rounded down) for `pool`, 2 less in each dimension for `convolve`; and the
input images are well formed. -/
def KernelCall.wellSized : KernelCall → Image → Prop
  | .rectify input _, output =>
      input.wf ∧ output.width = input.width ∧ output.height = input.height
  | .pool input, output =>
      input.wf ∧ output.width = input.width / 2 ∧ output.height = input.height / 2
  | .convolve input _, output =>
      input.wf ∧ output.width + 2 = input.width ∧ output.height + 2 = input.height
  | .symmetric_difference input1 input2, output =>
      input1.wf ∧ input2.wf
        ∧ input1.width = output.width ∧ input1.height = output.height
        ∧ input2.width = output.width ∧ input2.height = output.height

instance (k : KernelCall) (output : Image) : Decidable (k.wellSized output) := by
  cases k <;> (unfold KernelCall.wellSized; infer_instance)

/-- The iterations `lo .. hi-1` of a `for` loop: the share of the loop that
one worker of a parallel `for` executes. -/
def forRange {σ : Type} (lo hi : Nat) (body : Nat → σ → Option σ) (s : σ) : Option σ :=
  (List.range' lo (hi - lo)).foldlM (fun st i => body i st) s

/-- The loops of the call's kernel executed slice by slice: each element
`(lo, hi)` of `slices` is the column range of one worker, which runs the
columns `lo .. hi-1` and, for each, the inner loop over the rows; the workers
take effect in the order of the list. -/
def KernelCall.runSlices (k : KernelCall) (slices : List (Nat × Nat)) (output : Image) :
    Option Image :=
  slices.foldlM (fun st s =>
    forRange s.1 s.2 (fun i st =>
      forLoop output.height (fun j st => k.cell i j st) st) st) output

/-- The loop bodies of the call's kernel executed in the order of `sched`, a
list of output coordinates: an interleaving of the workers at the granularity
of one loop body. -/
def KernelCall.runSchedule (k : KernelCall) (sched : List (Nat × Nat)) (output : Image) :
    Option Image :=
  sched.foldlM (fun st c => k.cell c.1 c.2 st) output

/-- The contiguous slices of lengths `lens` laid end to end from `start`:
`(start, start + l1)`, `(start + l1, start + l1 + l2)`, and so on. -/
def slicesOf : Nat → List Nat → List (Nat × Nat)
  | _, [] => []
  | start, len :: rest => (start, start + len) :: slicesOf (start + len) rest

/-- The output coordinates one worker handles, in the order in which it
handles them: the columns `lo .. hi-1` of its slice `(lo, hi)`, and within a
column the rows `0 .. h-1`. -/
def workerCells (h : Nat) (s : Nat × Nat) : List (Nat × Nat) :=
  (List.range' s.1 (s.2 - s.1)).flatMap (fun i => (List.range h).map (fun j => (i, j)))

/-- The coordinates of a `w` x `h` grid in the order of the sequential loops:
column by column, and within a column row by row. -/
def grid (w h : Nat) : List (Nat × Nat) :=
  (List.range w).flatMap (fun i => (List.range h).map (fun j => (i, j)))

/-! ## The dispatcher `main` -/

/-- Subtraction of two `unsigned int` values: the difference modulo
`2 ^ 32`. -/
def usub (a b : Nat) : Nat :=
  (a % UINT_MOD + UINT_MOD - b % UINT_MOD) % UINT_MOD

/-- The constructor `Image::Image(width, height)`: a buffer of
`width * height` pixels, the product taken in `unsigned int` arithmetic. The
source leaves the buffer uninitialised; `fill n` stands for what slot `n`
happens to hold. -/
def Image.new (width height : Nat) (fill : Nat → Pixel) : Image :=
  { width := width, height := height,
    raw := (List.range (width * height % UINT_MOD)).map fill }

/-- The dimensions `main` passes to `new Image(..)` for the output of each
operation, from the width and height of the decoded input; `none` for an
unrecognised operation, where `main` exits. -/
def outputSize (operation : String) (width height : Nat) : Option (Nat × Nat) :=
  if operation = "rectification" then some (width, height)
  else if operation = "max-pooling" then some (width / 2, height / 2)
  else if operation = "convolution" then some (usub width 2, usub height 2)
  else none

/-- The branch of `main` selected by `operation`, from the decoded input to
the output image that is saved: it allocates the output and runs the kernel.
`w` is the weight matrix of `wm.h`. The result is `none` for an unrecognised
operation, where `main` exits, and when the kernel accesses a buffer out of
bounds. Loading, timing, printing and saving are left out. -/
def dispatch (operation : String) (input : Image) (w : Nat → Nat → F32)
    (fill : Nat → Pixel) : Option Image :=
  if operation = "rectification" then
    rectify input (Image.new input.width input.height fill) 127
  else if operation = "max-pooling" then
    pool input (Image.new (input.width / 2) (input.height / 2) fill)
  else if operation = "convolution" then
    convolve input (Image.new (usub input.width 2) (usub input.height 2) fill) w
  else
    none

/-- The C library's `isspace` in the "C" locale: space and the characters
9 to 13. -/
def isSpace (c : Char) : Bool :=
  decide (c.toNat = 32 ∨ (9 ≤ c.toNat ∧ c.toNat ≤ 13))

/-- The digits loop of `atoi`: accumulates decimal digits until the first
character that is not a digit. -/
def atoiDigits : List Char → Int → Int
  | [], acc => acc
  | c :: cs, acc =>
    if 48 ≤ c.toNat ∧ c.toNat ≤ 57 then atoiDigits cs (acc * 10 + ((c.toNat : Int) - 48))
    else acc

/-- The C library's `atoi`: skips leading white space, reads an optional
sign (`-` is character 45, `+` is 43) and the decimal digits that follow;
0 when there is no digit. Values outside the range of `int`, undefined in C,
are not reduced. -/
def atoi (s : String) : Int :=
  match s.toList.dropWhile isSpace with
  | [] => 0
  | c :: cs =>
    if c.toNat = 45 then -atoiDigits cs 0
    else if c.toNat = 43 then atoiDigits cs 0
    else atoiDigits (c :: cs) 0

/-- The value of the variable `threads` of `main` for the command line
`argv` (with `argc = argv.length`): `none` when `main` prints the usage line
and exits. -/
def mainThreads (argv : List String) : Option Int :=
  if argv.length < 4 then none
  else some (if argv.length ≥ 4 then atoi (argv.getD 3 "") else 1)

/-! ## The byte-wise rectify of `rectify_omp.c` -/

/-- Conversion of an `unsigned int` value to `int`: values from `2 ^ 31` up
become negative. -/
def toInt (u : Nat) : Int :=
  if u % UINT_MOD < 2 ^ 31 then ((u % UINT_MOD : Nat) : Int)
  else ((u % UINT_MOD : Nat) : Int) - (UINT_MOD : Int)

/-- The function `rectify(count, image, threads, lib)` of `rectify_omp.c`,
on the byte buffer `image`: every byte below 128 among the first `count` is
replaced by 127. An index outside the buffer gives `none`. -/
def rectify_omp.rectify (count : Int) (image : List Nat) : Option (List Nat) :=
  forLoop count.toNat (fun i img => do
    let b ← img[i]?
    pure (img.set i (if b > 127 then b else 127))) image

/-- The function `process` of `rectify_omp.c`, from the decoded bytes, width
and height to the bytes that are encoded: it calls `rectify` with the count
`width * height * 4`. -/
def rectify_omp.process (image : List Nat) (width height : Nat) : Option (List Nat) :=
  rectify_omp.rectify (toInt (width * height * 4 % UINT_MOD)) image

/-- The bytes of an image buffer: four bytes R, G, B, A per pixel in buffer
order, the layout the codec produces and consumes. -/
def Image.bytes (img : Image) : List Nat :=
  img.raw.flatMap (fun p => [p.R, p.G, p.B, p.A])

/-! ## Loops -/

theorem forLoop_zero {σ : Type} (body : Nat → σ → Option σ) (s : σ) :
    forLoop 0 body s = some s := by
  simp [forLoop]

theorem forLoop_succ {σ : Type} (n : Nat) (body : Nat → σ → Option σ) (s : σ) :
    forLoop (n + 1) body s = (forLoop n body s).bind (body n) := by
  simp [forLoop, List.range_succ, List.foldlM_append]

/-- Total-correctness rule for `forLoop`: an invariant that holds initially
and that every iteration re-establishes (while returning a state) holds of
the state the loop returns. -/
theorem forLoop_inv {σ : Type} (P : Nat → σ → Prop) (n : Nat)
    (body : Nat → σ → Option σ) (s : σ) (h0 : P 0 s)
    (hstep : ∀ i st, i < n → P i st → ∃ st2, body i st = some st2 ∧ P (i + 1) st2) :
    ∃ st, forLoop n body s = some st ∧ P n st := by
  induction n with
  | zero => exact ⟨s, forLoop_zero body s, h0⟩
  | succ n ih =>
    obtain ⟨st, hst, hP⟩ := ih (fun i st hi hp => hstep i st (Nat.lt_succ_of_lt hi) hp)
    obtain ⟨st2, hb, hP2⟩ := hstep n st (Nat.lt_succ_self n) hP
    exact ⟨st2, by rw [forLoop_succ, hst]; exact hb, hP2⟩

/-! ## Offsets and buffer cells -/

theorem offset_lt {w h i j : Nat} (hi : i < w) (hj : j < h) : i + j * w < w * h := by
  have h1 : (j + 1) * w ≤ h * w := Nat.mul_le_mul_right w hj
  have h2 : (j + 1) * w = j * w + w := by ring
  have h3 : h * w = w * h := Nat.mul_comm h w
  omega

theorem offset_inj {w i j i2 j2 : Nat} (hi : i < w) (hi2 : i2 < w)
    (h : i + j * w = i2 + j2 * w) : i = i2 ∧ j = j2 := by
  have hm : (i + j * w) % w = (i2 + j2 * w) % w := by rw [h]
  rw [Nat.add_mul_mod_self_right, Nat.add_mul_mod_self_right,
    Nat.mod_eq_of_lt hi, Nat.mod_eq_of_lt hi2] at hm
  subst hm
  have hw : 0 < w := by omega
  have h4 : j * w = j2 * w := by omega
  exact ⟨rfl, Nat.eq_of_mul_eq_mul_right hw h4⟩

/-- In a well-formed image an in-range coordinate has the offset
`x + y * width`, without wrap-around, and it lies inside the buffer. -/
theorem Image.get_eq {img : Image} (hwf : img.wf) {x y : Nat}
    (hx : x < img.width) (hy : y < img.height) :
    img.get x y = x + y * img.width ∧ img.get x y < img.raw.length := by
  have hlt := offset_lt hx hy
  have hmod : (x + y * img.width) % UINT_MOD = x + y * img.width :=
    Nat.mod_eq_of_lt (lt_trans hlt hwf.1)
  unfold Image.get
  rw [hmod, hwf.2]
  exact ⟨rfl, hlt⟩

theorem Image.load_isSome {img : Image} (hwf : img.wf) {x y : Nat}
    (hx : x < img.width) (hy : y < img.height) :
    ∃ p, img.load (img.get x y) = some p ∧ p ∈ img.raw := by
  have hlt := (Image.get_eq hwf hx hy).2
  refine ⟨img.raw[img.get x y], ?_, List.getElem_mem _⟩
  simp [Image.load, List.getElem?_eq_getElem hlt]

theorem Image.pixelAt_eq {img : Image} {x y : Nat} {p : Pixel}
    (h : img.load (img.get x y) = some p) : img.pixelAt x y = p := by
  simp [Image.pixelAt, h]

/-- Two images of the same dimensions, each with a buffer of `width * height`
pixels, are equal when they hold the same pixel at every coordinate. -/
theorem Image.ext_cells {r1 r2 : Image} (hwf1 : r1.wf) (hwf2 : r2.wf)
    (hw : r1.width = r2.width) (hh : r1.height = r2.height)
    (hcells : ∀ i j, i < r1.width → j < r1.height →
      r1.load (r1.get i j) = r2.load (r2.get i j)) : r1 = r2 := by
  obtain ⟨w1, h1, raw1⟩ := r1
  obtain ⟨w2, h2, raw2⟩ := r2
  simp only at hw hh
  subst hw hh
  have hraw : raw1 = raw2 := by
    apply List.ext_getElem?
    intro n
    by_cases hn : n < w1 * h1
    · have hw0 : 0 < w1 := by
        rcases Nat.eq_zero_or_pos w1 with h0 | h0
        · subst h0; simp at hn
        · exact h0
      have hi : n % w1 < w1 := Nat.mod_lt n hw0
      have hj : n / w1 < h1 := by
        rw [Nat.div_lt_iff_lt_mul hw0, Nat.mul_comm]; exact hn
      have hsum : n % w1 + n / w1 * w1 = n := by
        rw [Nat.mul_comm]; exact Nat.mod_add_div n w1
      have hc := hcells (n % w1) (n / w1) hi hj
      have g1 := (Image.get_eq hwf1 hi hj).1
      have g2 := (Image.get_eq hwf2 hi hj).1
      simp only [Image.load] at hc
      rw [g1, g2] at hc
      simp only [hsum] at hc
      exact hc
    · have l1 : raw1.length ≤ n := by have := hwf1.2; simp only at this; omega
      have l2 : raw2.length ≤ n := by have := hwf2.2; simp only at this; omega
      rw [List.getElem?_eq_none l1, List.getElem?_eq_none l2]
  rw [hraw]

/-- The nested loops shared by the kernels: when the body at `(i, j)` stores
the pixel `f i j` at the output's cell `(i, j)`, the loops return an image
of the same dimensions whose cell `(i, j)` holds `f i j`, for every
coordinate of the output, whatever the output held before. -/
theorem fill_spec (output : Image) (body : Nat → Nat → Image → Option Image)
    (f : Nat → Nat → Pixel) (hwf : output.wf)
    (hbody : ∀ i j st, i < output.width → j < output.height →
      body i j st = st.store (st.get i j) (f i j)) :
    ∃ res, forLoop output.width (fun i out =>
        forLoop output.height (fun j out => body i j out) out) output = some res
      ∧ res.width = output.width ∧ res.height = output.height
      ∧ res.raw.length = output.raw.length
      ∧ ∀ i j, i < output.width → j < output.height →
          res.load (res.get i j) = some (f i j) := by
  -- invariant of the outer loop: the columns before `i` are filled
  let P : Nat → Image → Prop := fun i st =>
    st.width = output.width ∧ st.height = output.height
      ∧ st.raw.length = output.raw.length
      ∧ ∀ i2 j2, i2 < i → i2 < output.width → j2 < output.height →
          st.raw[i2 + j2 * output.width]? = some (f i2 j2)
  have hP0 : P 0 output := ⟨rfl, rfl, rfl, fun i2 j2 h => absurd h (Nat.not_lt_zero _)⟩
  have hstep : ∀ i st, i < output.width → P i st →
      ∃ st2, forLoop output.height (fun j out => body i j out) st = some st2
        ∧ P (i + 1) st2 := by
    intro i st hi hPi
    -- invariant of the inner loop: moreover the rows before `j` of column `i`
    let Q : Nat → Image → Prop := fun j s =>
      P i s ∧ ∀ j2, j2 < j → j2 < output.height →
        s.raw[i + j2 * output.width]? = some (f i j2)
    have hQ0 : Q 0 st := ⟨hPi, fun j2 h => absurd h (Nat.not_lt_zero _)⟩
    have hQstep : ∀ j s, j < output.height → Q j s →
        ∃ s2, body i j s = some s2 ∧ Q (j + 1) s2 := by
      intro j s hj hQ
      obtain ⟨⟨hw, hh, hlen, hcols⟩, hrows⟩ := hQ
      have swf : s.wf := by
        refine ⟨?_, ?_⟩
        · rw [hw, hh]; exact hwf.1
        · rw [hlen, hw, hh]; exact hwf.2
      have hget := Image.get_eq swf (hw ▸ hi) (hh ▸ hj)
      rw [hw] at hget
      have hidx : i + j * output.width < s.raw.length := by
        have := hget.2; rw [hget.1] at this; exact this
      refine ⟨{ width := s.width, height := s.height,
                raw := s.raw.set (i + j * output.width) (f i j) }, ?_, ?_⟩
      · rw [hbody i j s hi hj, hget.1]
        simp [Image.store, hidx]
      · refine ⟨⟨hw, hh, ?_, ?_⟩, ?_⟩
        · simp [hlen]
        · intro i2 j2 hi2 hi2w hj2
          have hne : i + j * output.width ≠ i2 + j2 * output.width := by
            intro heq
            have := (offset_inj hi hi2w heq).1
            omega
          show (s.raw.set (i + j * output.width) (f i j))[i2 + j2 * output.width]? = _
          rw [List.getElem?_set_ne hne]
          exact hcols i2 j2 hi2 hi2w hj2
        · intro j2 hj2 hj2h
          show (s.raw.set (i + j * output.width) (f i j))[i + j2 * output.width]? = _
          by_cases hjj : j2 = j
          · subst hjj
            rw [List.getElem?_set_self hidx]
          · have hne : i + j * output.width ≠ i + j2 * output.width := by
              intro heq
              have := (offset_inj hi hi heq).2
              omega
            rw [List.getElem?_set_ne hne]
            exact hrows j2 (by omega) hj2h
    obtain ⟨st2, hrun, ⟨hw, hh, hlen, hcols⟩, hrows⟩ :=
      forLoop_inv Q output.height (fun j out => body i j out) st hQ0 hQstep
    refine ⟨st2, hrun, hw, hh, hlen, ?_⟩
    intro i2 j2 hi2 hi2w hj2
    by_cases hii : i2 = i
    · subst hii; exact hrows j2 hj2 hj2
    · exact hcols i2 j2 (by omega) hi2w hj2
  obtain ⟨res, hrun, hw, hh, hlen, hcells⟩ :=
    forLoop_inv P output.width
      (fun i out => forLoop output.height (fun j out => body i j out) out) output hP0 hstep
  refine ⟨res, hrun, hw, hh, hlen, ?_⟩
  intro i j hi hj
  have rwf : res.wf := by
    refine ⟨?_, ?_⟩
    · rw [hw, hh]; exact hwf.1
    · rw [hlen, hw, hh]; exact hwf.2
  have hget := Image.get_eq rwf (hw ▸ hi) (hh ▸ hj)
  unfold Image.load
  rw [hget.1, hw]
  exact hcells i j hi hi hj

/-! ## Channel arithmetic -/

theorem clamp_eq_max {v c : Nat} (hv : v ≤ 255) : clamp v c 255 = max v c := by
  unfold clamp
  split_ifs with h1 h2 <;> omega

theorem clamp_zero {v : Nat} (hv : v ≤ 255) : clamp v 0 255 = v := by
  rw [clamp_eq_max hv]; omega

theorem le_clamp {v c : Nat} (hc : c ≤ 255) : c ≤ clamp v c 255 := by
  unfold clamp
  split_ifs with h1 h2 <;> omega

theorem clamp_mono {v1 v2 c : Nat} (hc : c ≤ 255) (h : v1 ≤ v2) :
    clamp v1 c 255 ≤ clamp v2 c 255 := by
  unfold clamp
  split_ifs <;> omega

theorem toUChar_abs_sub {a b : Nat} (ha : a ≤ 255) (hb : b ≤ 255) :
    ((toUChar |(a : Int) - (b : Int)| : Nat) : Int) = |(a : Int) - (b : Int)|
      ∧ toUChar |(a : Int) - (b : Int)| ≤ 255 := by
  unfold toUChar
  rcases le_total (a : Int) (b : Int) with h | h
  · rw [abs_of_nonpos (by omega)]; omega
  · rw [abs_of_nonneg (by omega)]; omega

theorem toUChar_abs_self (a : Nat) : toUChar |(a : Int) - (a : Int)| = 0 := by
  simp [toUChar]

/-! ## Rectify -/

/-- What `rectify` computes: with a well-formed input and an output no larger
than the input, it returns the output with every cell `(i, j)` holding the
clamped channels of the input's pixel at `(i, j)` and alpha 255. -/
theorem rectify_cells (input output : Image) (ceiling : Nat)
    (hin : input.wf) (hout : output.wf)
    (hw : output.width ≤ input.width) (hh : output.height ≤ input.height) :
    ∃ res, rectify input output ceiling = some res
      ∧ res.width = output.width ∧ res.height = output.height
      ∧ ∀ i j, i < output.width → j < output.height →
          ∃ pi, input.load (input.get i j) = some pi ∧ pi ∈ input.raw
            ∧ res.load (res.get i j) = some
                { R := clamp pi.R ceiling 255
                  G := clamp pi.G ceiling 255
                  B := clamp pi.B ceiling 255
                  A := 255 } := by
  obtain ⟨res, hrun, hrw, hrh, -, hcells⟩ := fill_spec output
    (fun i j out => do
      let pi ← input.load (input.get i j)
      out.store (out.get i j)
        { R := clamp pi.R ceiling 255
          G := clamp pi.G ceiling 255
          B := clamp pi.B ceiling 255
          A := 255 })
    (fun i j =>
      { R := clamp (input.pixelAt i j).R ceiling 255
        G := clamp (input.pixelAt i j).G ceiling 255
        B := clamp (input.pixelAt i j).B ceiling 255
        A := 255 })
    hout
    (by
      intro i j st hi hj
      obtain ⟨p, hp, -⟩ := Image.load_isSome hin (lt_of_lt_of_le hi hw) (lt_of_lt_of_le hj hh)
      simp [hp, Image.pixelAt_eq hp])
  refine ⟨res, hrun, hrw, hrh, ?_⟩
  intro i j hi hj
  obtain ⟨p, hp, hmem⟩ := Image.load_isSome hin (lt_of_lt_of_le hi hw) (lt_of_lt_of_le hj hh)
  refine ⟨p, hp, hmem, ?_⟩
  rw [hcells i j hi hj, Image.pixelAt_eq hp]

/-- C4: for a well-formed input with 8-bit channels and an output of the
input's size, `rectify` returns the output in which every cell `(i, j)` has
each of R, G, B equal to `clamp(in, ceiling, 255)` of the input's channel at
`(i, j)`, which is `max(in, ceiling)`, and alpha 255. -/
theorem rectify_clamp (input output : Image) (ceiling : Nat)
    (hin : input.wf) (hout : output.wf) (hpx : input.pixelsOk)
    (hw : output.width = input.width) (hh : output.height = input.height) :
    ∃ res, rectify input output ceiling = some res
      ∧ res.width = output.width ∧ res.height = output.height
      ∧ ∀ i j, i < output.width → j < output.height →
          ∃ pi po, input.load (input.get i j) = some pi
            ∧ res.load (res.get i j) = some po
            ∧ po.R = clamp pi.R ceiling 255 ∧ po.R = max pi.R ceiling
            ∧ po.G = clamp pi.G ceiling 255 ∧ po.G = max pi.G ceiling
            ∧ po.B = clamp pi.B ceiling 255 ∧ po.B = max pi.B ceiling
            ∧ po.A = 255 := by
  obtain ⟨res, hrun, hrw, hrh, hcells⟩ :=
    rectify_cells input output ceiling hin hout (le_of_eq hw) (le_of_eq hh)
  refine ⟨res, hrun, hrw, hrh, ?_⟩
  intro i j hi hj
  obtain ⟨pi, hpi, hmem, hpo⟩ := hcells i j hi hj
  obtain ⟨hR, hG, hB, -⟩ := hpx pi hmem
  exact ⟨pi, _, hpi, hpo, rfl, clamp_eq_max hR, rfl, clamp_eq_max hG, rfl,
    clamp_eq_max hB, rfl⟩

/-- Witness of C4 on the 2x2 image `sampleA` with ceiling 127. -/
theorem rectify_clamp_witness :
    ∃ res, rectify sampleA scratch2x2 127 = some res
      ∧ res.width = scratch2x2.width ∧ res.height = scratch2x2.height
      ∧ ∀ i j, i < scratch2x2.width → j < scratch2x2.height →
          ∃ pi po, sampleA.load (sampleA.get i j) = some pi
            ∧ res.load (res.get i j) = some po
            ∧ po.R = clamp pi.R 127 255 ∧ po.R = max pi.R 127
            ∧ po.G = clamp pi.G 127 255 ∧ po.G = max pi.G 127
            ∧ po.B = clamp pi.B 127 255 ∧ po.B = max pi.B 127
            ∧ po.A = 255 :=
  rectify_clamp sampleA scratch2x2 127 (by decide) (by decide) (by decide) rfl rfl

/-- C9: with ceiling 0, `rectify` returns an output whose R, G and B at every
cell equal the input's; alpha is 255. -/
theorem rectify_zero_ceiling (input output : Image)
    (hin : input.wf) (hout : output.wf) (hpx : input.pixelsOk)
    (hw : output.width = input.width) (hh : output.height = input.height) :
    ∃ res, rectify input output 0 = some res
      ∧ res.width = input.width ∧ res.height = input.height
      ∧ ∀ i j, i < input.width → j < input.height →
          ∃ pi po, input.load (input.get i j) = some pi
            ∧ res.load (res.get i j) = some po
            ∧ po.R = pi.R ∧ po.G = pi.G ∧ po.B = pi.B ∧ po.A = 255 := by
  obtain ⟨res, hrun, hrw, hrh, hcells⟩ :=
    rectify_cells input output 0 hin hout (le_of_eq hw) (le_of_eq hh)
  refine ⟨res, hrun, hrw.trans hw, hrh.trans hh, ?_⟩
  intro i j hi hj
  obtain ⟨pi, hpi, hmem, hpo⟩ := hcells i j (hw ▸ hi) (hh ▸ hj)
  obtain ⟨hR, hG, hB, -⟩ := hpx pi hmem
  exact ⟨pi, _, hpi, hpo, clamp_zero hR, clamp_zero hG, clamp_zero hB, rfl⟩

/-- Witness of C9 on the 2x2 image `sampleA`. -/
theorem rectify_zero_ceiling_witness :
    ∃ res, rectify sampleA scratch2x2 0 = some res
      ∧ res.width = sampleA.width ∧ res.height = sampleA.height
      ∧ ∀ i j, i < sampleA.width → j < sampleA.height →
          ∃ pi po, sampleA.load (sampleA.get i j) = some pi
            ∧ res.load (res.get i j) = some po
            ∧ po.R = pi.R ∧ po.G = pi.G ∧ po.B = pi.B ∧ po.A = 255 :=
  rectify_zero_ceiling sampleA scratch2x2 (by decide) (by decide) (by decide) rfl rfl

/-- C10: for a ceiling `c` in `0 .. 255`, every R, G, B channel of the output
of `rectify` is at least `c`, and the output channel is non-decreasing in the
input channel: of two cells, the one whose input channel is smaller or equal
has the smaller or equal output channel. -/
theorem rectify_ge_and_monotone (input output : Image) (c : Nat)
    (hin : input.wf) (hout : output.wf) (hc : c ≤ 255)
    (hw : output.width = input.width) (hh : output.height = input.height) :
    ∃ res, rectify input output c = some res
      ∧ (∀ i j, i < output.width → j < output.height →
          ∃ po, res.load (res.get i j) = some po ∧ c ≤ po.R ∧ c ≤ po.G ∧ c ≤ po.B)
      ∧ (∀ i j i2 j2, i < output.width → j < output.height →
          i2 < output.width → j2 < output.height →
          ∃ pi pi2 po po2, input.load (input.get i j) = some pi
            ∧ input.load (input.get i2 j2) = some pi2
            ∧ res.load (res.get i j) = some po
            ∧ res.load (res.get i2 j2) = some po2
            ∧ (pi.R ≤ pi2.R → po.R ≤ po2.R)
            ∧ (pi.G ≤ pi2.G → po.G ≤ po2.G)
            ∧ (pi.B ≤ pi2.B → po.B ≤ po2.B)) := by
  obtain ⟨res, hrun, -, -, hcells⟩ :=
    rectify_cells input output c hin hout (le_of_eq hw) (le_of_eq hh)
  refine ⟨res, hrun, ?_, ?_⟩
  · intro i j hi hj
    obtain ⟨pi, -, -, hpo⟩ := hcells i j hi hj
    exact ⟨_, hpo, le_clamp hc, le_clamp hc, le_clamp hc⟩
  · intro i j i2 j2 hi hj hi2 hj2
    obtain ⟨pi, hpi, -, hpo⟩ := hcells i j hi hj
    obtain ⟨pi2, hpi2, -, hpo2⟩ := hcells i2 j2 hi2 hj2
    exact ⟨pi, pi2, _, _, hpi, hpi2, hpo, hpo2, clamp_mono hc, clamp_mono hc,
      clamp_mono hc⟩

/-- Witness of C10 on the 2x2 image `sampleA` with ceiling 127. -/
theorem rectify_ge_and_monotone_witness :
    ∃ res, rectify sampleA scratch2x2 127 = some res
      ∧ (∀ i j, i < scratch2x2.width → j < scratch2x2.height →
          ∃ po, res.load (res.get i j) = some po
            ∧ 127 ≤ po.R ∧ 127 ≤ po.G ∧ 127 ≤ po.B)
      ∧ (∀ i j i2 j2, i < scratch2x2.width → j < scratch2x2.height →
          i2 < scratch2x2.width → j2 < scratch2x2.height →
          ∃ pi pi2 po po2, sampleA.load (sampleA.get i j) = some pi
            ∧ sampleA.load (sampleA.get i2 j2) = some pi2
            ∧ res.load (res.get i j) = some po
            ∧ res.load (res.get i2 j2) = some po2
            ∧ (pi.R ≤ pi2.R → po.R ≤ po2.R)
            ∧ (pi.G ≤ pi2.G → po.G ≤ po2.G)
            ∧ (pi.B ≤ pi2.B → po.B ≤ po2.B)) :=
  rectify_ge_and_monotone sampleA scratch2x2 127 (by decide) (by decide) (by decide) rfl rfl

/-! ## Symmetric difference -/

/-- What `symmetric_difference` computes: whenever the output is well formed
and every offset `get(i, j)` computed for an output coordinate lies inside
both input buffers, it returns the output with every cell `(i, j)` holding
the channel-wise absolute differences of the two pixels read, alpha 255. -/
theorem symmetric_difference_cells (input1 input2 output : Image) (hout : output.wf)
    (hreads : ∀ i j, i < output.width → j < output.height →
      input1.get i j < input1.raw.length ∧ input2.get i j < input2.raw.length) :
    ∃ res, symmetric_difference input1 input2 output = some res
      ∧ res.width = output.width ∧ res.height = output.height ∧ res.wf
      ∧ ∀ i j, i < output.width → j < output.height →
          ∃ p1 p2, input1.load (input1.get i j) = some p1 ∧ p1 ∈ input1.raw
            ∧ input2.load (input2.get i j) = some p2 ∧ p2 ∈ input2.raw
            ∧ res.load (res.get i j) = some
                { R := toUChar |(p1.R : Int) - (p2.R : Int)|
                  G := toUChar |(p1.G : Int) - (p2.G : Int)|
                  B := toUChar |(p1.B : Int) - (p2.B : Int)|
                  A := 255 } := by
  have hload : ∀ i j, i < output.width → j < output.height →
      ∃ p1 p2, input1.load (input1.get i j) = some p1 ∧ p1 ∈ input1.raw
        ∧ input2.load (input2.get i j) = some p2 ∧ p2 ∈ input2.raw := by
    intro i j hi hj
    obtain ⟨h1, h2⟩ := hreads i j hi hj
    refine ⟨input1.raw[input1.get i j], input2.raw[input2.get i j], ?_,
      List.getElem_mem _, ?_, List.getElem_mem _⟩
    · simp [Image.load, List.getElem?_eq_getElem h1]
    · simp [Image.load, List.getElem?_eq_getElem h2]
  obtain ⟨res, hrun, hrw, hrh, hlen, hcells⟩ := fill_spec output
    (fun i j out => do
      let p1 ← input1.load (input1.get i j)
      let p2 ← input2.load (input2.get i j)
      out.store (out.get i j)
        { R := toUChar |(p1.R : Int) - (p2.R : Int)|
          G := toUChar |(p1.G : Int) - (p2.G : Int)|
          B := toUChar |(p1.B : Int) - (p2.B : Int)|
          A := 255 })
    (fun i j =>
      { R := toUChar |((input1.pixelAt i j).R : Int) - ((input2.pixelAt i j).R : Int)|
        G := toUChar |((input1.pixelAt i j).G : Int) - ((input2.pixelAt i j).G : Int)|
        B := toUChar |((input1.pixelAt i j).B : Int) - ((input2.pixelAt i j).B : Int)|
        A := 255 })
    hout
    (by
      intro i j st hi hj
      obtain ⟨p1, p2, hp1, -, hp2, -⟩ := hload i j hi hj
      simp [hp1, hp2, Image.pixelAt_eq hp1, Image.pixelAt_eq hp2])
  have rwf : res.wf := by
    refine ⟨?_, ?_⟩
    · rw [hrw, hrh]; exact hout.1
    · rw [hlen, hrw, hrh]; exact hout.2
  refine ⟨res, hrun, hrw, hrh, rwf, ?_⟩
  intro i j hi hj
  obtain ⟨p1, p2, hp1, hm1, hp2, hm2⟩ := hload i j hi hj
  refine ⟨p1, p2, hp1, hm1, hp2, hm2, ?_⟩
  rw [hcells i j hi hj, Image.pixelAt_eq hp1, Image.pixelAt_eq hp2]

/-- With inputs of the output's size, every read of `symmetric_difference`
is inside the input buffers. -/
theorem reads_ok_of_same_size {input1 input2 output : Image}
    (h1 : input1.wf) (h2 : input2.wf)
    (hw1 : input1.width = output.width) (hh1 : input1.height = output.height)
    (hw2 : input2.width = output.width) (hh2 : input2.height = output.height) :
    ∀ i j, i < output.width → j < output.height →
      input1.get i j < input1.raw.length ∧ input2.get i j < input2.raw.length := by
  intro i j hi hj
  exact ⟨(Image.get_eq h1 (hw1 ▸ hi) (hh1 ▸ hj)).2, (Image.get_eq h2 (hw2 ▸ hi) (hh2 ▸ hj)).2⟩

/-- Exchanging the two inputs does not change what `symmetric_difference`
returns, on any arguments. -/
theorem symmetric_difference_swap (input1 input2 output : Image) :
    symmetric_difference input1 input2 output
      = symmetric_difference input2 input1 output := by
  unfold symmetric_difference
  congr 1
  funext i out
  congr 1
  funext j out
  cases h1 : input1.load (input1.get i j) <;> cases h2 : input2.load (input2.get i j) <;>
    simp [abs_sub_comm]

/-- C5: for two well-formed inputs of the output's size with 8-bit channels,
`symmetric_difference` returns the output in which every cell `(i, j)` has
each of R, G, B equal to the absolute value of the integer difference of the
inputs' channels at `(i, j)`, a value in `0 .. 255`, and alpha 255. -/
theorem symmetric_difference_abs (input1 input2 output : Image)
    (h1 : input1.wf) (h2 : input2.wf) (hout : output.wf)
    (hp1 : input1.pixelsOk) (hp2 : input2.pixelsOk)
    (hw1 : input1.width = output.width) (hh1 : input1.height = output.height)
    (hw2 : input2.width = output.width) (hh2 : input2.height = output.height) :
    ∃ res, symmetric_difference input1 input2 output = some res
      ∧ res.width = output.width ∧ res.height = output.height
      ∧ ∀ i j, i < output.width → j < output.height →
          ∃ p1 p2 po, input1.load (input1.get i j) = some p1
            ∧ input2.load (input2.get i j) = some p2
            ∧ res.load (res.get i j) = some po
            ∧ (po.R : Int) = |(p1.R : Int) - (p2.R : Int)| ∧ po.R ≤ 255
            ∧ (po.G : Int) = |(p1.G : Int) - (p2.G : Int)| ∧ po.G ≤ 255
            ∧ (po.B : Int) = |(p1.B : Int) - (p2.B : Int)| ∧ po.B ≤ 255
            ∧ po.A = 255 := by
  obtain ⟨res, hrun, hrw, hrh, -, hcells⟩ := symmetric_difference_cells input1 input2 output
    hout (reads_ok_of_same_size h1 h2 hw1 hh1 hw2 hh2)
  refine ⟨res, hrun, hrw, hrh, ?_⟩
  intro i j hi hj
  obtain ⟨p1, p2, hl1, hm1, hl2, hm2, hpo⟩ := hcells i j hi hj
  obtain ⟨a1, a2, a3, -⟩ := hp1 p1 hm1
  obtain ⟨b1, b2, b3, -⟩ := hp2 p2 hm2
  exact ⟨p1, p2, _, hl1, hl2, hpo, (toUChar_abs_sub a1 b1).1, (toUChar_abs_sub a1 b1).2,
    (toUChar_abs_sub a2 b2).1, (toUChar_abs_sub a2 b2).2,
    (toUChar_abs_sub a3 b3).1, (toUChar_abs_sub a3 b3).2, rfl⟩

/-- Witness of C5 on the 2x2 images `sampleA` and `sampleB`. -/
theorem symmetric_difference_abs_witness :
    ∃ res, symmetric_difference sampleA sampleB scratch2x2 = some res
      ∧ res.width = scratch2x2.width ∧ res.height = scratch2x2.height
      ∧ ∀ i j, i < scratch2x2.width → j < scratch2x2.height →
          ∃ p1 p2 po, sampleA.load (sampleA.get i j) = some p1
            ∧ sampleB.load (sampleB.get i j) = some p2
            ∧ res.load (res.get i j) = some po
            ∧ (po.R : Int) = |(p1.R : Int) - (p2.R : Int)| ∧ po.R ≤ 255
            ∧ (po.G : Int) = |(p1.G : Int) - (p2.G : Int)| ∧ po.G ≤ 255
            ∧ (po.B : Int) = |(p1.B : Int) - (p2.B : Int)| ∧ po.B ≤ 255
            ∧ po.A = 255 :=
  symmetric_difference_abs sampleA sampleB scratch2x2 (by decide) (by decide) (by decide)
    (by decide) (by decide) rfl rfl rfl rfl

/-- C6: for two well-formed images `a` and `b` of the same size and output
buffers of that size, whatever they held before, `symmetric_difference a b`
and `symmetric_difference b a` both return, and return the same output
image. -/
theorem symmetric_difference_comm (a b out1 out2 : Image)
    (ha : a.wf) (hb : b.wf) (ho1 : out1.wf) (ho2 : out2.wf)
    (hwa : a.width = out1.width) (hha : a.height = out1.height)
    (hwb : b.width = out1.width) (hhb : b.height = out1.height)
    (hw2 : out2.width = out1.width) (hh2 : out2.height = out1.height) :
    ∃ res, symmetric_difference a b out1 = some res
      ∧ symmetric_difference b a out2 = some res := by
  obtain ⟨res1, hrun1, hrw1, hrh1, rwf1, hcells1⟩ := symmetric_difference_cells a b out1 ho1
    (reads_ok_of_same_size ha hb hwa hha hwb hhb)
  obtain ⟨res2, hrun2, hrw2, hrh2, rwf2, hcells2⟩ := symmetric_difference_cells a b out2 ho2
    (reads_ok_of_same_size ha hb (hwa.trans hw2.symm) (hha.trans hh2.symm)
      (hwb.trans hw2.symm) (hhb.trans hh2.symm))
  have heq : res2 = res1 := by
    apply Image.ext_cells rwf2 rwf1 (by rw [hrw2, hrw1, hw2]) (by rw [hrh2, hrh1, hh2])
    intro i j hi hj
    rw [hrw2] at hi
    rw [hrh2] at hj
    obtain ⟨p1, p2, hl1, -, hl2, -, hpo⟩ := hcells1 i j (hw2 ▸ hi) (hh2 ▸ hj)
    obtain ⟨q1, q2, hm1, -, hm2, -, hqo⟩ := hcells2 i j hi hj
    have e1 : p1 = q1 := Option.some.inj (hl1.symm.trans hm1)
    have e2 : p2 = q2 := Option.some.inj (hl2.symm.trans hm2)
    subst e1 e2
    rw [hpo, hqo]
  refine ⟨res1, hrun1, ?_⟩
  rw [symmetric_difference_swap b a out2, hrun2, heq]

/-- Witness of C6 on the 2x2 images `sampleA` and `sampleB`, with two output
buffers of different previous content. -/
theorem symmetric_difference_comm_witness :
    ∃ res, symmetric_difference sampleA sampleB scratch2x2 = some res
      ∧ symmetric_difference sampleB sampleA scratch2x2b = some res :=
  symmetric_difference_comm sampleA sampleB scratch2x2 scratch2x2b (by decide) (by decide)
    (by decide) (by decide) rfl rfl rfl rfl rfl rfl

/-- C7: for a well-formed image `a` and an output of its size,
`symmetric_difference a a` returns an output in which every pixel has
R = G = B = 0 and alpha 255. -/
theorem symmetric_difference_self (a output : Image)
    (ha : a.wf) (hout : output.wf)
    (hw : a.width = output.width) (hh : a.height = output.height) :
    ∃ res, symmetric_difference a a output = some res
      ∧ res.width = output.width ∧ res.height = output.height
      ∧ ∀ i j, i < output.width → j < output.height →
          res.load (res.get i j) = some { R := 0, G := 0, B := 0, A := 255 } := by
  obtain ⟨res, hrun, hrw, hrh, -, hcells⟩ := symmetric_difference_cells a a output hout
    (reads_ok_of_same_size ha ha hw hh hw hh)
  refine ⟨res, hrun, hrw, hrh, ?_⟩
  intro i j hi hj
  obtain ⟨p1, p2, hl1, -, hl2, -, hpo⟩ := hcells i j hi hj
  have hp : p1 = p2 := Option.some.inj (hl1.symm.trans hl2)
  subst hp
  rw [hpo, toUChar_abs_self, toUChar_abs_self, toUChar_abs_self]

/-- Witness of C7 on the 2x2 image `sampleA`. -/
theorem symmetric_difference_self_witness :
    ∃ res, symmetric_difference sampleA sampleA scratch2x2 = some res
      ∧ res.width = scratch2x2.width ∧ res.height = scratch2x2.height
      ∧ ∀ i j, i < scratch2x2.width → j < scratch2x2.height →
          res.load (res.get i j) = some { R := 0, G := 0, B := 0, A := 255 } :=
  symmetric_difference_self sampleA scratch2x2 (by decide) (by decide) rfl rfl

/-! ## Convolution -/

theorem Image.coord_lt {img : Image} (hwf : img.wf) {x y : Nat}
    (hx : x < img.width) (hy : y < img.height) : x < UINT_MOD ∧ y < UINT_MOD := by
  have h1 : img.width ≤ img.width * img.height :=
    Nat.le_mul_of_pos_right _ (by omega)
  have h2 : img.height ≤ img.width * img.height :=
    Nat.le_mul_of_pos_left _ (by omega)
  have := hwf.1
  omega

theorem Image.load_pixelAt {img : Image} (hwf : img.wf) {x y : Nat}
    (hx : x < img.width) (hy : y < img.height) :
    img.load (img.get x y) = some (img.pixelAt x y) := by
  obtain ⟨p, hp, -⟩ := Image.load_isSome hwf hx hy
  rw [Image.pixelAt_eq hp, hp]

/-- The reads of `convolve` for an output pixel whose 3x3 neighbourhood lies
inside the input: the coordinates do not wrap and the reads succeed. -/
theorem convolve_reads {input : Image} (hwf : input.wf) {i j : Nat}
    (hi : i + 2 < input.width) (hj : j + 2 < input.height) :
    ∀ k l, k < 3 → l < 3 →
      input.load (input.get ((i + k) % UINT_MOD) ((j + l) % UINT_MOD))
        = some (input.pixelAt (i + k) (j + l)) := by
  intro k l hk hl
  have hx : i + k < input.width := by omega
  have hy : j + l < input.height := by omega
  obtain ⟨hxm, hym⟩ := Image.coord_lt hwf hx hy
  rw [Nat.mod_eq_of_lt hxm, Nat.mod_eq_of_lt hym]
  exact Image.load_pixelAt hwf hx hy

/-! ## Rounding and clamping exact rationals -/

theorem clamp_rat_bounds (x : ℚ) : 0 ≤ clamp x 0 255 ∧ clamp x 0 255 ≤ 255 := by
  unfold clamp
  split_ifs with h1 h2
  · norm_num
  · norm_num
  · exact ⟨le_of_not_lt h1, le_of_not_lt h2⟩

theorem lround_eq_round {y : ℚ} (hy : 0 ≤ y) : lround y = round y := by
  unfold lround
  rw [if_pos hy, round_eq]

theorem lround_bounds {y : ℚ} (h0 : 0 ≤ y) (h1 : y ≤ 255) :
    0 ≤ lround y ∧ lround y ≤ 255 := by
  unfold lround
  rw [if_pos h0]
  constructor
  · exact Int.floor_nonneg.mpr (by linarith)
  · have h : ⌊y + 1 / 2⌋ < 256 := Int.floor_lt.mpr (by push_cast; linarith)
    omega

theorem toUChar_lround_clamp (x : ℚ) :
    ((toUChar (lround (clamp x 0 255)) : Nat) : Int) = lround (clamp x 0 255) := by
  obtain ⟨h0, h1⟩ := clamp_rat_bounds x
  obtain ⟨hl, hu⟩ := lround_bounds h0 h1
  unfold toUChar
  omega

theorem lround_near {y : ℚ} (hy : 0 ≤ y) : |((lround y : Int) : ℚ) - y| ≤ 1 / 2 := by
  unfold lround
  rw [if_pos hy]
  have h1 := Int.floor_le (y + 1 / 2)
  have h2 := Int.lt_floor_add_one (y + 1 / 2)
  exact abs_le.mpr ⟨by linarith, by linarith⟩

theorem stored_round (x : ℚ) :
    ((toUChar (lround (clamp x 0 255)) : Nat) : Int) = lround (clamp x 0 255)
      ∧ |((toUChar (lround (clamp x 0 255)) : Nat) : ℚ) - clamp x 0 255| ≤ 1 / 2 := by
  have h := toUChar_lround_clamp x
  refine ⟨h, ?_⟩
  have hq : ((toUChar (lround (clamp x 0 255)) : Nat) : ℚ)
      = ((lround (clamp x 0 255) : Int) : ℚ) := by
    have hc := congrArg (fun z : Int => (z : ℚ)) h
    simpa using hc
  rw [hq]
  exact lround_near (clamp_rat_bounds x).1

theorem toUChar_lround_clamp_nat {v : Nat} (hv : v ≤ 255) :
    toUChar (lround (clamp (v : ℚ) 0 255)) = v := by
  have hc : clamp (v : ℚ) 0 255 = (v : ℚ) := by
    have h0 : (0 : ℚ) ≤ (v : ℚ) := Nat.cast_nonneg v
    have h1 : (v : ℚ) ≤ 255 := by exact_mod_cast hv
    unfold clamp
    rw [if_neg (not_lt.mpr h0), if_neg (not_lt.mpr h1)]
  have hl : lround (v : ℚ) = (v : Int) := by
    unfold lround
    rw [if_pos (Nat.cast_nonneg v), Int.floor_eq_iff]
    constructor
    · push_cast; linarith
    · push_cast; linarith
  rw [hc, hl]
  unfold toUChar
  omega

/-! ## Binary32 arithmetic -/

theorem pow_div_bounds {n k L : Nat} (h1 : 2 ^ L ≤ n / 2 ^ k) (h2 : n / 2 ^ k < 2 ^ (L + 1)) :
    2 ^ (L + k) ≤ n ∧ n < 2 ^ (L + k + 1) := by
  have hk : 0 < 2 ^ k := Nat.two_pow_pos _
  constructor
  · rw [Nat.pow_add]
    exact (Nat.le_div_iff_mul_le hk).mp h1
  · have e : 2 ^ (L + k + 1) = 2 ^ (L + 1) * 2 ^ k := by
      rw [← Nat.pow_add]; congr 1; omega
    rw [e]
    exact (Nat.div_lt_iff_lt_mul hk).mp h2

/-- The search of `ilog2Fuel` finds the leading binary digit whenever the fuel
is at least the number. -/
theorem ilog2Fuel_spec (fuel n : Nat) (hf : n ≤ fuel) (hn : 1 ≤ n) :
    2 ^ ilog2Fuel fuel n ≤ n ∧ n < 2 ^ (ilog2Fuel fuel n + 1) := by
  induction fuel generalizing n with
  | zero => omega
  | succ fuel ih =>
    unfold ilog2Fuel
    by_cases h2 : n < 2
    · rw [if_pos h2]
      have : n = 1 := by omega
      subst this
      decide
    · rw [if_neg h2]
      have hdiv : ∀ k, 1 ≤ k → 2 ^ k ≤ n → n / 2 ^ k ≤ fuel ∧ 1 ≤ n / 2 ^ k := by
        intro k hk hle
        have hpos : 0 < 2 ^ k := Nat.two_pow_pos _
        have h1 : 1 ≤ n / 2 ^ k := (Nat.le_div_iff_mul_le hpos).mpr (by omega)
        have h3 : n / 2 ^ k < n :=
          Nat.div_lt_self (by omega) (Nat.one_lt_two_pow (by omega))
        exact ⟨by omega, h1⟩
      by_cases h64 : 2 ^ 64 ≤ n
      · rw [if_pos h64]
        obtain ⟨a, b⟩ := hdiv 64 (by decide) h64
        obtain ⟨c, d⟩ := ih (n / 2 ^ 64) a b
        exact pow_div_bounds c d
      · rw [if_neg h64]
        by_cases h8 : 2 ^ 8 ≤ n
        · rw [if_pos h8]
          obtain ⟨a, b⟩ := hdiv 8 (by decide) h8
          obtain ⟨c, d⟩ := ih (n / 2 ^ 8) a b
          exact pow_div_bounds c d
        · rw [if_neg h8]
          obtain ⟨a, b⟩ := hdiv 1 (by decide) (by omega)
          rw [Nat.pow_one] at a b
          obtain ⟨c, d⟩ := ih (n / 2) a b
          have := @pow_div_bounds n 1 (ilog2Fuel fuel (n / 2)) (by rw [Nat.pow_one]; exact c)
            (by rw [Nat.pow_one]; exact d)
          exact this

theorem ilog2_spec (n : Nat) (hn : 1 ≤ n) : 2 ^ ilog2 n ≤ n ∧ n < 2 ^ (ilog2 n + 1) :=
  ilog2Fuel_spec n n (le_refl n) hn

theorem ilog2_unique {n a : Nat} (h1 : 2 ^ a ≤ n) (h2 : n < 2 ^ (a + 1)) : ilog2 n = a := by
  have hn : 1 ≤ n := le_trans (Nat.one_le_two_pow) h1
  obtain ⟨s1, s2⟩ := ilog2_spec n hn
  have l1 : ilog2 n < a + 1 :=
    (Nat.pow_lt_pow_iff_right (by decide : 1 < 2)).mp (lt_of_le_of_lt s1 h2)
  have l2 : a < ilog2 n + 1 :=
    (Nat.pow_lt_pow_iff_right (by decide : 1 < 2)).mp (lt_of_le_of_lt h1 s2)
  omega

theorem roundNearestEven_mul (m b : Nat) (hb : 0 < b) : roundNearestEven (m * b) b = m := by
  unfold roundNearestEven
  rw [Nat.mul_mod_left, Nat.mul_div_cancel m hb, if_pos (by omega)]

/-- Rounding is exact on an integer of fewer than 25 bits: for `N < 2 ^ 24`
the value `N` (that is `N * 2 ^ 149` units) is a binary32 value. -/
theorem F32.round_exact (negative : Bool) (N d : Nat) (hN : N < 2 ^ 24) (hd : 0 < d) :
    F32.round negative (N * 2 ^ 149 * d) d
      = F32.fin (if negative then -((N * 2 ^ 149 : Nat) : Int) else ((N * 2 ^ 149 : Nat) : Int)) := by
  simp only [F32.round]
  rw [Nat.mul_div_cancel _ hd]
  rcases Nat.eq_zero_or_pos N with h0 | hpos
  · subst h0
    simp only [Nat.zero_mul]
    rw [if_pos (by decide : 0 < 2 ^ 24)]
    have h := roundNearestEven_mul 0 (d * 2 ^ 0) (by simpa using hd)
    rw [Nat.zero_mul] at h
    rw [h, Nat.zero_mul]
    rfl
  · obtain ⟨s1, s2⟩ := ilog2_spec N hpos
    have hL : ilog2 N ≤ 23 := by
      have : ilog2 N < 24 :=
        (Nat.pow_lt_pow_iff_right (by decide : 1 < 2)).mp (lt_of_le_of_lt s1 hN)
      omega
    have hq : ilog2 (N * 2 ^ 149) = ilog2 N + 149 := by
      apply ilog2_unique
      · rw [Nat.pow_add]; exact Nat.mul_le_mul_right _ s1
      · have e : 2 ^ (ilog2 N + 149 + 1) = 2 ^ (ilog2 N + 1) * 2 ^ 149 := by
          rw [← Nat.pow_add]
        rw [e]
        exact Nat.mul_lt_mul_of_pos_right s2 (Nat.two_pow_pos _)
    have hbig : ¬ N * 2 ^ 149 < 2 ^ 24 := by
      have h149 : 2 ^ 24 ≤ 1 * 2 ^ 149 := by decide
      have : 1 * 2 ^ 149 ≤ N * 2 ^ 149 := Nat.mul_le_mul_right _ hpos
      omega
    rw [if_neg hbig, hq]
    have he : ilog2 N + 149 - 23 = ilog2 N + 126 := by omega
    rw [he]
    have hsplit : (2 : Nat) ^ 149 = 2 ^ (23 - ilog2 N) * 2 ^ (ilog2 N + 126) := by
      rw [← Nat.pow_add]; congr 1; omega
    have hnum : N * 2 ^ 149 * d = (N * 2 ^ (23 - ilog2 N)) * (d * 2 ^ (ilog2 N + 126)) := by
      rw [hsplit]; ring
    have hden : 0 < d * 2 ^ (ilog2 N + 126) := Nat.mul_pos hd (Nat.two_pow_pos _)
    rw [hnum, roundNearestEven_mul _ _ hden]
    have hback : N * 2 ^ (23 - ilog2 N) * 2 ^ (ilog2 N + 126) = N * 2 ^ 149 := by
      rw [hsplit]; ring
    rw [hback]
    have hlt : N * 2 ^ 149 < 2 ^ 139 * 2 ^ 138 := by
      have h1 : N * 2 ^ 149 < 2 ^ 24 * 2 ^ 149 :=
        Nat.mul_lt_mul_of_pos_right hN (Nat.two_pow_pos _)
      have h2 : 2 ^ 24 * 2 ^ 149 ≤ 2 ^ 139 * 2 ^ 138 := by decide
      omega
    rw [if_pos hlt]

theorem F32.ofNat_exact {p : Nat} (hp : p < 2 ^ 24) : F32.ofNat p = F32.ofInt (p : Int) := by
  unfold F32.ofNat F32.ofInt
  have h := F32.round_exact false p 1 hp (by decide)
  rw [Nat.mul_one] at h
  rw [h]
  simp

/-- The product of two integer-valued `float`s whose exact product has fewer
than 25 bits is exact. -/
theorem F32.mul_exact (a b : Int) (h : a.natAbs * b.natAbs < 2 ^ 24) :
    F32.mul (F32.ofInt a) (F32.ofInt b) = F32.ofInt (a * b) := by
  unfold F32.ofInt
  show F32.round _ _ _ = _
  have hs : (0 : Int) < ((2 ^ 149 : Nat) : Int) := by
    have : 0 < (2 ^ 149 : Nat) := Nat.two_pow_pos _
    exact_mod_cast this
  have na : (a * ((2 ^ 149 : Nat) : Int)).natAbs = a.natAbs * 2 ^ 149 := by
    rw [Int.natAbs_mul, Int.natAbs_ofNat]
  have nb : (b * ((2 ^ 149 : Nat) : Int)).natAbs = b.natAbs * 2 ^ 149 := by
    rw [Int.natAbs_mul, Int.natAbs_ofNat]
  rw [na, nb]
  have hnum : a.natAbs * 2 ^ 149 * (b.natAbs * 2 ^ 149)
      = (a.natAbs * b.natAbs) * 2 ^ 149 * 2 ^ 149 := by ring
  rw [hnum, F32.round_exact _ _ _ h (Nat.two_pow_pos _)]
  congr 1
  have sa : (a * ((2 ^ 149 : Nat) : Int) < 0) ↔ a < 0 := by
    constructor
    · intro hlt
      by_contra hge
      have : 0 ≤ a * ((2 ^ 149 : Nat) : Int) := Int.mul_nonneg (by omega) (le_of_lt hs)
      omega
    · intro hlt
      exact Int.mul_neg_of_neg_of_pos hlt hs
  have sb : (b * ((2 ^ 149 : Nat) : Int) < 0) ↔ b < 0 := by
    constructor
    · intro hlt
      by_contra hge
      have : 0 ≤ b * ((2 ^ 149 : Nat) : Int) := Int.mul_nonneg (by omega) (le_of_lt hs)
      omega
    · intro hlt
      exact Int.mul_neg_of_neg_of_pos hlt hs
  have hab : ((a.natAbs * b.natAbs * 2 ^ 149 : Nat) : Int)
      = (|a| * |b|) * ((2 ^ 149 : Nat) : Int) := by
    rw [Nat.cast_mul, Nat.cast_mul, Int.natCast_natAbs, Int.natCast_natAbs]
  rw [hab]
  simp only [sa, sb]
  rcases lt_or_le a 0 with ha | ha <;> rcases lt_or_le b 0 with hb | hb
  · rw [abs_of_neg ha, abs_of_neg hb]
    simp only [ha, hb, decide_True, bne_self_eq_false, Bool.false_eq_true, if_false]
    ring
  · rw [abs_of_neg ha, abs_of_nonneg hb]
    simp only [ha, not_lt.mpr hb, decide_True, decide_False, Bool.true_bne, Bool.not_false,
      if_true]
    ring
  · rw [abs_of_nonneg ha, abs_of_neg hb]
    simp only [not_lt.mpr ha, hb, decide_True, decide_False, Bool.false_bne, if_true]
    ring
  · rw [abs_of_nonneg ha, abs_of_nonneg hb]
    simp only [not_lt.mpr ha, not_lt.mpr hb, decide_False, bne_self_eq_false,
      Bool.false_eq_true, if_false]

/-- The sum of two integer-valued `float`s whose exact sum has fewer than 25
bits is exact. -/
theorem F32.add_exact (a b : Int) (h : (a + b).natAbs < 2 ^ 24) :
    F32.add (F32.ofInt a) (F32.ofInt b) = F32.ofInt (a + b) := by
  unfold F32.ofInt
  show F32.round _ _ _ = _
  have hs : (0 : Int) < ((2 ^ 149 : Nat) : Int) := by
    have : 0 < (2 ^ 149 : Nat) := Nat.two_pow_pos _
    exact_mod_cast this
  have hsum : a * ((2 ^ 149 : Nat) : Int) + b * ((2 ^ 149 : Nat) : Int)
      = (a + b) * ((2 ^ 149 : Nat) : Int) := by ring
  rw [hsum]
  have nab : ((a + b) * ((2 ^ 149 : Nat) : Int)).natAbs = (a + b).natAbs * 2 ^ 149 * 1 := by
    rw [Int.natAbs_mul, Int.natAbs_ofNat, Nat.mul_one]
  rw [nab, F32.round_exact _ _ _ h (by decide)]
  congr 1
  have sab : ((a + b) * ((2 ^ 149 : Nat) : Int) < 0) ↔ a + b < 0 := by
    constructor
    · intro hlt
      by_contra hge
      have : 0 ≤ (a + b) * ((2 ^ 149 : Nat) : Int) := Int.mul_nonneg (by omega) (le_of_lt hs)
      omega
    · intro hlt
      exact Int.mul_neg_of_neg_of_pos hlt hs
  have hab : (((a + b).natAbs * 2 ^ 149 : Nat) : Int) = |a + b| * ((2 ^ 149 : Nat) : Int) := by
    rw [Nat.cast_mul, Int.natCast_natAbs]
  rw [hab]
  simp only [sab]
  rcases lt_or_le (a + b) 0 with hneg | hpos
  · rw [abs_of_neg hneg]
    simp only [hneg, decide_True, if_true]
    ring
  · rw [abs_of_nonneg hpos]
    simp only [not_lt.mpr hpos, decide_False, Bool.false_eq_true, if_false]

/-! ## Clamping and rounding a `float` -/

theorem F32.ofNat_zero : F32.ofNat 0 = F32.fin 0 := by decide

theorem F32.ofNat_255 : F32.ofNat 255 = F32.fin ((255 * 2 ^ 149 : Nat) : Int) := by decide

theorem F32.clamp_fin (n : Int) :
    clamp (F32.fin n) (F32.ofNat 0) (F32.ofNat 255)
      = F32.fin (if n < 0 then 0
          else if ((255 * 2 ^ 149 : Nat) : Int) < n then ((255 * 2 ^ 149 : Nat) : Int) else n) := by
  rw [F32.ofNat_zero, F32.ofNat_255]
  unfold clamp
  show (if F32.lt (F32.fin n) (F32.fin 0) = true then _
    else if F32.lt (F32.fin _) (F32.fin n) = true then _ else _) = _
  simp only [F32.lt, decide_eq_true_eq]
  split_ifs <;> rfl

/-- What `convolve` stores is the integer `lround` returns: after the clamp
it lies in `0 .. 255`. -/
theorem F32.lround_clamp_bounds (s : F32) :
    0 ≤ F32.lround (clamp s (F32.ofNat 0) (F32.ofNat 255))
      ∧ F32.lround (clamp s (F32.ofNat 0) (F32.ofNat 255)) ≤ 255 := by
  cases s with
  | fin n =>
    rw [F32.clamp_fin]
    simp only [F32.lround]
    norm_num
    split_ifs <;> constructor <;> omega
  | inf negative => cases negative <;> decide
  | nan => decide

theorem F32.stored (s : F32) :
    ((toUChar (F32.lround (clamp s (F32.ofNat 0) (F32.ofNat 255))) : Nat) : Int)
      = F32.lround (clamp s (F32.ofNat 0) (F32.ofNat 255)) := by
  obtain ⟨h0, h1⟩ := F32.lround_clamp_bounds s
  unfold toUChar
  omega

/-- On an integer-valued `float` the clamp and `lround` of the code give what
the clamp and the rounding of the specification give on the integer. -/
theorem lround_clamp_ofInt (S : Int) :
    F32.lround (clamp (F32.ofInt S) (F32.ofNat 0) (F32.ofNat 255))
      = lround (clamp (S : ℚ) 0 255) := by
  have hq : lround (clamp (S : ℚ) 0 255) = max 0 (min S 255) := by
    have hfloor : ∀ z : Int, lround (z : ℚ) = if 0 ≤ z then z else z := by
      intro z
      unfold lround
      by_cases hz : 0 ≤ z
      · have : (0 : ℚ) ≤ (z : ℚ) := by exact_mod_cast hz
        rw [if_pos this, if_pos hz, Int.floor_eq_iff]
        constructor <;> linarith
      · have hlt : ¬ (0 : ℚ) ≤ (z : ℚ) := by
          intro h; exact hz (by exact_mod_cast h)
        rw [if_neg hlt, if_neg hz]
        have : ⌊-(z : ℚ) + 1 / 2⌋ = -z := by
          rw [Int.floor_eq_iff]
          push_cast
          constructor <;> linarith
        rw [this]; ring
    unfold clamp
    by_cases h1 : (S : ℚ) < 0
    · rw [if_pos h1]
      have : S < 0 := by exact_mod_cast h1
      have h0 := hfloor 0
      simp only [Int.cast_zero, le_refl, if_true] at h0
      rw [h0]; omega
    · rw [if_neg h1]
      have hS0 : 0 ≤ S := by
        have : (0 : ℚ) ≤ (S : ℚ) := not_lt.mp h1
        exact_mod_cast this
      by_cases h2 : (S : ℚ) > 255
      · rw [if_pos h2]
        have : 255 < S := by exact_mod_cast h2
        have h255 := hfloor 255
        simp only [Int.cast_ofNat] at h255
        rw [h255]; simp; omega
      · rw [if_neg h2]
        have : S ≤ 255 := by
          have : (S : ℚ) ≤ 255 := not_lt.mp h2
          exact_mod_cast this
        rw [hfloor S, if_pos hS0]; omega
  rw [hq]
  unfold F32.ofInt
  rw [F32.clamp_fin]
  simp only [F32.lround]
  norm_num
  split_ifs <;> omega

/-! ## The accumulator of `convolve` -/

/-- The accumulation loops of `convolve` compute `floatSum`, one per
channel. -/
theorem convolveSums_eq (input : Image) (wm : Nat → Nat → F32) (i j : Nat)
    (hload : ∀ k l, k < 3 → l < 3 →
      input.load (input.get ((i + k) % UINT_MOD) ((j + l) % UINT_MOD))
        = some (input.pixelAt (i + k) (j + l))) :
    convolveSums input wm i j = some
      (floatSum input wm Pixel.R i j, floatSum input wm Pixel.G i j,
        floatSum input wm Pixel.B i j) := by
  unfold convolveSums floatSum
  have h00 := hload 0 0 (by omega) (by omega)
  have h01 := hload 0 1 (by omega) (by omega)
  have h02 := hload 0 2 (by omega) (by omega)
  have h10 := hload 1 0 (by omega) (by omega)
  have h11 := hload 1 1 (by omega) (by omega)
  have h12 := hload 1 2 (by omega) (by omega)
  have h20 := hload 2 0 (by omega) (by omega)
  have h21 := hload 2 1 (by omega) (by omega)
  have h22 := hload 2 2 (by omega) (by omega)
  simp only [forLoop_succ, forLoop_zero, Option.some_bind, h00, h01, h02, h10, h11, h12,
    h20, h21, h22, bind, pure]
  rfl

theorem Image.pixelAt_wf {input : Image} (hpx : input.pixelsOk) (x y : Nat) :
    (input.pixelAt x y).wf := by
  unfold Image.pixelAt
  cases h : input.load (input.get x y) with
  | none => decide
  | some p => exact hpx p (List.getElem?_mem h)

/-- With integer weights of magnitude at most 7310 and 8-bit channels no
step of the accumulation rounds: from an integer accumulator `S`, the
accumulation over `cells` gives the exact integer sum. -/
theorem foldl_exact (input : Image) (wm : Nat → Nat → F32) (wi : Nat → Nat → Int)
    (chan : Pixel → Nat) (i j : Nat) (cells : List (Nat × Nat))
    (hw : ∀ c ∈ cells, wm c.2 c.1 = F32.ofInt (wi c.2 c.1) ∧ (wi c.2 c.1).natAbs ≤ 7310)
    (hp : ∀ c ∈ cells, chan (input.pixelAt (i + c.1) (j + c.2)) ≤ 255)
    (S : Int) (hS : S.natAbs + cells.length * 1864050 < 2 ^ 24) :
    cells.foldl (fun s kl =>
        F32.add s (F32.mul (F32.ofNat (chan (input.pixelAt (i + kl.1) (j + kl.2))))
          (wm kl.2 kl.1))) (F32.ofInt S)
      = F32.ofInt (cells.foldl (fun s kl =>
          s + (chan (input.pixelAt (i + kl.1) (j + kl.2)) : Int) * wi kl.2 kl.1) S) := by
  induction cells generalizing S with
  | nil => rfl
  | cons c cs ih =>
    obtain ⟨hwc, hwb⟩ := hw c (List.mem_cons_self _ _)
    have hpc := hp c (List.mem_cons_self _ _)
    simp only [List.length_cons] at hS
    have hprod : (chan (input.pixelAt (i + c.1) (j + c.2)) : Int).natAbs
        * (wi c.2 c.1).natAbs ≤ 1864050 := by
      rw [Int.natAbs_ofNat]
      exact Nat.mul_le_mul hpc hwb
    have hprod2 : ((chan (input.pixelAt (i + c.1) (j + c.2)) : Int) * wi c.2 c.1).natAbs
        ≤ 1864050 := by
      rw [Int.natAbs_mul]; exact hprod
    have hsum : (S + (chan (input.pixelAt (i + c.1) (j + c.2)) : Int) * wi c.2 c.1).natAbs
        ≤ S.natAbs + 1864050 :=
      le_trans (Int.natAbs_add_le _ _) (by omega)
    simp only [List.foldl_cons]
    rw [hwc, F32.ofNat_exact (by omega), F32.mul_exact _ _ (by omega),
      F32.add_exact _ _ (by omega)]
    exact ih (fun c hc => hw c (List.mem_cons_of_mem _ hc))
      (fun c hc => hp c (List.mem_cons_of_mem _ hc)) _ (by omega)

/-- With integer weights of magnitude at most 7310 and 8-bit channels the
accumulator of `convolve` is the exact sum. -/
theorem floatSum_exact (input : Image) (wm : Nat → Nat → F32) (wi : Nat → Nat → Int)
    (chan : Pixel → Nat) (i j : Nat)
    (hw : ∀ l k, l < 3 → k < 3 → wm l k = F32.ofInt (wi l k) ∧ (wi l k).natAbs ≤ 7310)
    (hp : ∀ x y, chan (input.pixelAt x y) ≤ 255) :
    floatSum input wm chan i j = F32.ofInt (intSum input wi chan i j) := by
  unfold floatSum intSum
  rw [F32.ofNat_zero]
  have h := foldl_exact input wm wi chan i j
    [(0, 0), (0, 1), (0, 2), (1, 0), (1, 1), (1, 2), (2, 0), (2, 1), (2, 2)]
    (by
      intro c hc
      simp only [List.mem_cons, List.mem_singleton, List.not_mem_nil, or_false] at hc
      rcases hc with rfl | rfl | rfl | rfl | rfl | rfl | rfl | rfl | rfl <;>
        exact hw _ _ (by decide) (by decide))
    (fun c _ => hp _ _) 0 (by decide)
  exact h

theorem intSum_cast (input : Image) (wi : Nat → Nat → Int) (chan : Pixel → Nat) (i j : Nat) :
    ((intSum input wi chan i j : Int) : ℚ)
      = specSum input (fun l k => (wi l k : ℚ)) chan i j := by
  unfold intSum specSum
  simp only [List.foldl_cons, List.foldl_nil, Finset.sum_range_succ, Finset.sum_range_zero]
  push_cast
  ring

/-- What `convolve` computes: with a well-formed input and an output at least
2 smaller in each dimension, it returns the output with every cell `(i, j)`
holding the rounded, clamped accumulators and alpha 255. -/
theorem convolve_cells (input output : Image) (wm : Nat → Nat → F32)
    (hin : input.wf) (hout : output.wf)
    (hw : output.width + 2 ≤ input.width) (hh : output.height + 2 ≤ input.height) :
    ∃ res, convolve input output wm = some res
      ∧ res.width = output.width ∧ res.height = output.height
      ∧ ∀ i j, i < output.width → j < output.height →
          res.load (res.get i j) = some
            { R := toUChar (F32.lround
                (clamp (floatSum input wm Pixel.R i j) (F32.ofNat 0) (F32.ofNat 255)))
              G := toUChar (F32.lround
                (clamp (floatSum input wm Pixel.G i j) (F32.ofNat 0) (F32.ofNat 255)))
              B := toUChar (F32.lround
                (clamp (floatSum input wm Pixel.B i j) (F32.ofNat 0) (F32.ofNat 255)))
              A := 255 } := by
  obtain ⟨res, hrun, hrw, hrh, -, hcells⟩ := fill_spec output
    (fun i j out => do
      let sums ← convolveSums input wm i j
      out.store (out.get i j)
        { R := toUChar (F32.lround (clamp sums.1 (F32.ofNat 0) (F32.ofNat 255)))
          G := toUChar (F32.lround (clamp sums.2.1 (F32.ofNat 0) (F32.ofNat 255)))
          B := toUChar (F32.lround (clamp sums.2.2 (F32.ofNat 0) (F32.ofNat 255)))
          A := 255 })
    (fun i j =>
      { R := toUChar (F32.lround
          (clamp (floatSum input wm Pixel.R i j) (F32.ofNat 0) (F32.ofNat 255)))
        G := toUChar (F32.lround
          (clamp (floatSum input wm Pixel.G i j) (F32.ofNat 0) (F32.ofNat 255)))
        B := toUChar (F32.lround
          (clamp (floatSum input wm Pixel.B i j) (F32.ofNat 0) (F32.ofNat 255)))
        A := 255 })
    hout
    (by
      intro i j st hi hj
      have hs := convolveSums_eq input wm i j
        (convolve_reads hin (by omega) (by omega))
      simp [hs])
  exact ⟨res, hrun, hrw, hrh, hcells⟩

/-- The channel stored for an integer-valued accumulator is the rounded,
clamped integer of the specification's formula. -/
theorem stored_exact (input : Image) (wm : Nat → Nat → F32) (wi : Nat → Nat → Int)
    (chan : Pixel → Nat) (i j : Nat)
    (hw : ∀ l k, l < 3 → k < 3 → wm l k = F32.ofInt (wi l k) ∧ (wi l k).natAbs ≤ 7310)
    (hp : ∀ x y, chan (input.pixelAt x y) ≤ 255) :
    F32.lround (clamp (floatSum input wm chan i j) (F32.ofNat 0) (F32.ofNat 255))
      = lround (clamp (specSum input (fun l k => (wi l k : ℚ)) chan i j) 0 255) := by
  rw [floatSum_exact input wm wi chan i j hw hp, lround_clamp_ofInt, intSum_cast]

/-- C2, counterexample: with the nine weights `0.1f` and red values of sum 45
the accumulator of `convolve` ends below 4.5 and red 4 is stored, while the
exact sum of the claim's formula, 603979785 / 134217728, is above 4.5 and
rounds to 5. -/
theorem convolve_rounds_each_step :
    convolve tenths3x3 scratch1x1 (fun _ _ => tenth)
        = some { width := 1, height := 1, raw := [px 4 5 0 255] }
      ∧ F32.toRat tenth = 13421773 / 134217728
      ∧ specSum tenths3x3 (fun _ _ => 13421773 / 134217728) Pixel.R 0 0
          = 603979785 / 134217728
      ∧ lround (clamp (specSum tenths3x3 (fun _ _ => 13421773 / 134217728) Pixel.R 0 0) 0 255)
          = 5 := by
  have hsum : specSum tenths3x3 (fun _ _ => 13421773 / 134217728) Pixel.R 0 0
      = 603979785 / 134217728 := by
    have p00 : tenths3x3.pixelAt 0 0 = px 6 5 0 255 := by decide
    have p01 : tenths3x3.pixelAt 0 1 = px 6 5 0 255 := by decide
    have p02 : tenths3x3.pixelAt 0 2 = px 6 5 0 255 := by decide
    have p10 : tenths3x3.pixelAt 1 0 = px 2 5 0 255 := by decide
    have p11 : tenths3x3.pixelAt 1 1 = px 1 5 0 255 := by decide
    have p12 : tenths3x3.pixelAt 1 2 = px 6 5 0 255 := by decide
    have p20 : tenths3x3.pixelAt 2 0 = px 8 5 0 255 := by decide
    have p21 : tenths3x3.pixelAt 2 1 = px 9 5 0 255 := by decide
    have p22 : tenths3x3.pixelAt 2 2 = px 1 5 0 255 := by decide
    simp only [specSum, Finset.sum_range_succ, Finset.sum_range_zero, Nat.zero_add,
      p00, p01, p02, p10, p11, p12, p20, p21, p22, px]
    norm_num
  refine ⟨by decide, ?_, hsum, ?_⟩
  · simp only [F32.toRat, tenth]
    norm_num
  · rw [hsum]
    norm_num [lround, clamp]

/-- C2, amended: for a well-formed input, binary32 weights and an output
exactly 2 smaller in each dimension, `convolve` returns the output in which,
at every cell `(i, j)`, each channel `c` of R, G, B is
`lround(clamp(s, 0, 255))` for the binary32 accumulator `s = floatSum`: from
0, for `k = 0, 1, 2` and within it `l = 0, 1, 2`, `s` becomes the rounded sum
of `s` and the rounded product of `input.get(i+k, j+l).c` and
`weights[l][k]`; alpha is 255 and every neighbourhood read is inside the
input. When the weights are integers of magnitude at most 7310 and the
channels are 8-bit, nothing is rounded and the channel is
`lround(clamp(sum, 0, 255))` for the exact sum of the specification. -/
theorem convolve_binary32 (input output : Image) (wm : Nat → Nat → F32)
    (hin : input.wf) (hout : output.wf)
    (hw : output.width + 2 = input.width) (hh : output.height + 2 = input.height) :
    ∃ res, convolve input output wm = some res
      ∧ res.width = output.width ∧ res.height = output.height
      ∧ ∀ i j, i < output.width → j < output.height →
          (∀ k l, k < 3 → l < 3 →
            input.load (input.get (i + k) (j + l)) = some (input.pixelAt (i + k) (j + l)))
          ∧ ∃ po, res.load (res.get i j) = some po
            ∧ (po.R : Int) = F32.lround
                (clamp (floatSum input wm Pixel.R i j) (F32.ofNat 0) (F32.ofNat 255))
            ∧ (po.G : Int) = F32.lround
                (clamp (floatSum input wm Pixel.G i j) (F32.ofNat 0) (F32.ofNat 255))
            ∧ (po.B : Int) = F32.lround
                (clamp (floatSum input wm Pixel.B i j) (F32.ofNat 0) (F32.ofNat 255))
            ∧ po.A = 255
            ∧ ∀ wi : Nat → Nat → Int, input.pixelsOk →
                (∀ l k, l < 3 → k < 3 →
                  wm l k = F32.ofInt (wi l k) ∧ (wi l k).natAbs ≤ 7310) →
                (po.R : Int) = lround
                    (clamp (specSum input (fun l k => (wi l k : ℚ)) Pixel.R i j) 0 255)
                  ∧ (po.G : Int) = lround
                    (clamp (specSum input (fun l k => (wi l k : ℚ)) Pixel.G i j) 0 255)
                  ∧ (po.B : Int) = lround
                    (clamp (specSum input (fun l k => (wi l k : ℚ)) Pixel.B i j) 0 255) := by
  obtain ⟨res, hrun, hrw, hrh, hcells⟩ :=
    convolve_cells input output wm hin hout (le_of_eq hw) (le_of_eq hh)
  refine ⟨res, hrun, hrw, hrh, ?_⟩
  intro i j hi hj
  refine ⟨?_, _, hcells i j hi hj, F32.stored _, F32.stored _, F32.stored _, rfl, ?_⟩
  · intro k l hk hl
    exact Image.load_pixelAt hin (by omega) (by omega)
  · intro wi hpx hwi
    refine ⟨?_, ?_, ?_⟩
    · rw [← stored_exact input wm wi Pixel.R i j hwi
        (fun x y => (Image.pixelAt_wf hpx x y).1)]
      exact F32.stored _
    · rw [← stored_exact input wm wi Pixel.G i j hwi
        (fun x y => (Image.pixelAt_wf hpx x y).2.1)]
      exact F32.stored _
    · rw [← stored_exact input wm wi Pixel.B i j hwi
        (fun x y => (Image.pixelAt_wf hpx x y).2.2.1)]
      exact F32.stored _

/-- Witness of the amended C2 on the 3x3 image `sample3x3` with a 1x1 output
and the integer weights `weights[l][k] = l + 2 k - 3`. -/
theorem convolve_binary32_witness :
    ∃ res, convolve sample3x3 scratch1x1 rampKernel = some res
      ∧ res.width = scratch1x1.width ∧ res.height = scratch1x1.height
      ∧ ∀ i j, i < scratch1x1.width → j < scratch1x1.height →
          (∀ k l, k < 3 → l < 3 →
            sample3x3.load (sample3x3.get (i + k) (j + l))
              = some (sample3x3.pixelAt (i + k) (j + l)))
          ∧ ∃ po, res.load (res.get i j) = some po
            ∧ (po.R : Int) = F32.lround
                (clamp (floatSum sample3x3 rampKernel Pixel.R i j)
                  (F32.ofNat 0) (F32.ofNat 255))
            ∧ (po.G : Int) = F32.lround
                (clamp (floatSum sample3x3 rampKernel Pixel.G i j)
                  (F32.ofNat 0) (F32.ofNat 255))
            ∧ (po.B : Int) = F32.lround
                (clamp (floatSum sample3x3 rampKernel Pixel.B i j)
                  (F32.ofNat 0) (F32.ofNat 255))
            ∧ po.A = 255
            ∧ ∀ wi : Nat → Nat → Int, sample3x3.pixelsOk →
                (∀ l k, l < 3 → k < 3 →
                  rampKernel l k = F32.ofInt (wi l k) ∧ (wi l k).natAbs ≤ 7310) →
                (po.R : Int) = lround
                    (clamp (specSum sample3x3 (fun l k => (wi l k : ℚ)) Pixel.R i j) 0 255)
                  ∧ (po.G : Int) = lround
                    (clamp (specSum sample3x3 (fun l k => (wi l k : ℚ)) Pixel.G i j) 0 255)
                  ∧ (po.B : Int) = lround
                    (clamp (specSum sample3x3 (fun l k => (wi l k : ℚ)) Pixel.B i j) 0 255) :=
  convolve_binary32 sample3x3 scratch1x1 rampKernel (by decide) (by decide) rfl rfl

theorem centreKernel_eq (l k : Nat) :
    centreKernel l k = F32.ofInt (if l = 1 ∧ k = 1 then 1 else 0)
      ∧ (if l = 1 ∧ k = 1 then (1 : Int) else 0).natAbs ≤ 7310 := by
  unfold centreKernel
  split_ifs
  · exact ⟨F32.ofNat_exact (by decide), by decide⟩
  · exact ⟨F32.ofNat_exact (by decide), by decide⟩

theorem intSum_centre (input : Image) (chan : Pixel → Nat) (i j : Nat) :
    intSum input (fun l k => if l = 1 ∧ k = 1 then 1 else 0) chan i j
      = (chan (input.pixelAt (i + 1) (j + 1)) : Int) := by
  simp [intSum]

/-- With the centre kernel and 8-bit channels the stored channel is the
channel of the input pixel at `(i+1, j+1)`. -/
theorem stored_centre (input : Image) (chan : Pixel → Nat) (i j : Nat)
    (hp : ∀ x y, chan (input.pixelAt x y) ≤ 255) :
    toUChar (F32.lround
        (clamp (floatSum input centreKernel chan i j) (F32.ofNat 0) (F32.ofNat 255)))
      = chan (input.pixelAt (i + 1) (j + 1)) := by
  rw [floatSum_exact input centreKernel (fun l k => if l = 1 ∧ k = 1 then 1 else 0) chan i j
    (fun l k _ _ => centreKernel_eq l k) hp, intSum_centre, lround_clamp_ofInt]
  exact toUChar_lround_clamp_nat (hp _ _)

/-- C3: for a well-formed W x H input with 8-bit channels, an output of size
(W-2) x (H-2) and the weight matrix that is 1 at the centre and 0 elsewhere,
`convolve` returns the output in which every cell `(i, j)` has the R, G, B of
the input's pixel at `(i+1, j+1)` and alpha 255. -/
theorem convolve_centre_identity (input output : Image)
    (hin : input.wf) (hout : output.wf) (hpx : input.pixelsOk)
    (hw : output.width + 2 = input.width) (hh : output.height + 2 = input.height) :
    ∃ res, convolve input output centreKernel = some res
      ∧ res.width = output.width ∧ res.height = output.height
      ∧ ∀ i j, i < output.width → j < output.height →
          ∃ pc po, input.load (input.get (i + 1) (j + 1)) = some pc
            ∧ res.load (res.get i j) = some po
            ∧ po.R = pc.R ∧ po.G = pc.G ∧ po.B = pc.B ∧ po.A = 255 := by
  obtain ⟨res, hrun, hrw, hrh, hcells⟩ :=
    convolve_cells input output centreKernel hin hout (le_of_eq hw) (le_of_eq hh)
  refine ⟨res, hrun, hrw, hrh, ?_⟩
  intro i j hi hj
  obtain ⟨pc, hpc, -⟩ :=
    Image.load_isSome hin (show i + 1 < input.width by omega)
      (show j + 1 < input.height by omega)
  have hat := Image.pixelAt_eq hpc
  refine ⟨pc, _, hpc, hcells i j hi hj, ?_, ?_, ?_, rfl⟩
  · show toUChar (F32.lround (clamp (floatSum input centreKernel Pixel.R i j)
      (F32.ofNat 0) (F32.ofNat 255))) = pc.R
    rw [stored_centre input Pixel.R i j (fun x y => (Image.pixelAt_wf hpx x y).1), hat]
  · show toUChar (F32.lround (clamp (floatSum input centreKernel Pixel.G i j)
      (F32.ofNat 0) (F32.ofNat 255))) = pc.G
    rw [stored_centre input Pixel.G i j (fun x y => (Image.pixelAt_wf hpx x y).2.1), hat]
  · show toUChar (F32.lround (clamp (floatSum input centreKernel Pixel.B i j)
      (F32.ofNat 0) (F32.ofNat 255))) = pc.B
    rw [stored_centre input Pixel.B i j (fun x y => (Image.pixelAt_wf hpx x y).2.2.1), hat]

/-- Witness of C3 on the 3x3 image `sample3x3` with a 1x1 output. -/
theorem convolve_centre_identity_witness :
    ∃ res, convolve sample3x3 scratch1x1 centreKernel = some res
      ∧ res.width = scratch1x1.width ∧ res.height = scratch1x1.height
      ∧ ∀ i j, i < scratch1x1.width → j < scratch1x1.height →
          ∃ pc po, sample3x3.load (sample3x3.get (i + 1) (j + 1)) = some pc
            ∧ res.load (res.get i j) = some po
            ∧ po.R = pc.R ∧ po.G = pc.G ∧ po.B = pc.B ∧ po.A = 255 :=
  convolve_centre_identity sample3x3 scratch1x1 (by decide) (by decide) (by decide) rfl rfl

/-! ## Symmetric difference on inputs of different sizes -/

/-- C8, counterexample: called with a 2x1 first input and a 1x1 second input
(and a 1x1 output), `symmetric_difference` does not fail: it returns the
output with its pixel written from the two pixels at offset 0. -/
theorem symmetric_difference_mismatch_returns :
    wide2x1.width ≠ single1x1.width
      ∧ wide2x1.width ≠ scratch1x1.width
      ∧ symmetric_difference wide2x1 single1x1 scratch1x1
          = some { width := 1, height := 1, raw := [px 60 30 57 255] } := by
  decide

/-- C8, amended: `symmetric_difference` compares no dimensions. Whatever the
widths and heights of the inputs, when the output is well formed and the
offset `get(i, j)` of every output coordinate lies inside both input buffers,
it returns the output in which every cell has each of R, G, B equal to the
absolute difference of the channels of the two pixels at those offsets, and
alpha 255. -/
theorem symmetric_difference_unchecked (input1 input2 output : Image)
    (hout : output.wf) (hp1 : input1.pixelsOk) (hp2 : input2.pixelsOk)
    (hreads : ∀ i j, i < output.width → j < output.height →
      input1.get i j < input1.raw.length ∧ input2.get i j < input2.raw.length) :
    ∃ res, symmetric_difference input1 input2 output = some res
      ∧ res.width = output.width ∧ res.height = output.height
      ∧ ∀ i j, i < output.width → j < output.height →
          ∃ p1 p2 po, input1.load (input1.get i j) = some p1
            ∧ input2.load (input2.get i j) = some p2
            ∧ res.load (res.get i j) = some po
            ∧ (po.R : Int) = |(p1.R : Int) - (p2.R : Int)|
            ∧ (po.G : Int) = |(p1.G : Int) - (p2.G : Int)|
            ∧ (po.B : Int) = |(p1.B : Int) - (p2.B : Int)|
            ∧ po.A = 255 := by
  obtain ⟨res, hrun, hrw, hrh, -, hcells⟩ :=
    symmetric_difference_cells input1 input2 output hout hreads
  refine ⟨res, hrun, hrw, hrh, ?_⟩
  intro i j hi hj
  obtain ⟨p1, p2, hl1, hm1, hl2, hm2, hpo⟩ := hcells i j hi hj
  obtain ⟨a1, a2, a3, -⟩ := hp1 p1 hm1
  obtain ⟨b1, b2, b3, -⟩ := hp2 p2 hm2
  exact ⟨p1, p2, _, hl1, hl2, hpo, (toUChar_abs_sub a1 b1).1, (toUChar_abs_sub a2 b2).1,
    (toUChar_abs_sub a3 b3).1, rfl⟩

/-- Witness of the amended C8 on inputs of different sizes: a 2x1 and a 1x1
input with a 1x1 output. -/
theorem symmetric_difference_unchecked_witness :
    wide2x1.width ≠ single1x1.width
      ∧ ∃ res, symmetric_difference wide2x1 single1x1 scratch1x1 = some res
        ∧ res.width = scratch1x1.width ∧ res.height = scratch1x1.height
        ∧ ∀ i j, i < scratch1x1.width → j < scratch1x1.height →
            ∃ p1 p2 po, wide2x1.load (wide2x1.get i j) = some p1
              ∧ single1x1.load (single1x1.get i j) = some p2
              ∧ res.load (res.get i j) = some po
              ∧ (po.R : Int) = |(p1.R : Int) - (p2.R : Int)|
              ∧ (po.G : Int) = |(p1.G : Int) - (p2.G : Int)|
              ∧ (po.B : Int) = |(p1.B : Int) - (p2.B : Int)|
              ∧ po.A = 255 :=
  ⟨by decide,
    symmetric_difference_unchecked wide2x1 single1x1 scratch1x1 (by decide) (by decide)
      (by decide)
      (by
        intro i j hi hj
        have hi0 : i = 0 := Nat.lt_one_iff.mp hi
        have hj0 : j = 0 := Nat.lt_one_iff.mp hj
        subst hi0 hj0
        decide)⟩

/-! ## Pooling -/

/-- C1, evaluation at the failing input: on the 2x2 block with red values
10, 5, 200, 90 (in the order `p1 .. p4`) `pool` writes red 10 although the
block's third pixel has red 200; on the block 10, 200, 50, 90 of the
specification's example it writes 200. -/
theorem pool_keeps_first_when_not_less :
    pool descendingFirstBlock scratch1x1
        = some { width := 1, height := 1, raw := [px 10 0 0 255] }
      ∧ (descendingFirstBlock.pixelAt 0 1).R = 200
      ∧ pool specBlock scratch1x1
        = some { width := 1, height := 1, raw := [px 200 0 0 255] } := by
  decide

/-- What `pool` computes: with a well-formed input and an output at most half
the input in each dimension, it returns the output in which every cell
`(i, j)` holds, per channel, the value the chain of comparisons selects among
the pixels `p1 .. p4` at `(2i, 2j)`, `(2i+1, 2j)`, `(2i, 2j+1)`,
`(2i+1, 2j+1)`, and alpha 255. -/
theorem pool_cells (input output : Image) (hin : input.wf) (hout : output.wf)
    (hw : 2 * output.width ≤ input.width) (hh : 2 * output.height ≤ input.height) :
    ∃ res, pool input output = some res
      ∧ res.width = output.width ∧ res.height = output.height
      ∧ ∀ i j, i < output.width → j < output.height →
          ∃ p1 p2 p3 p4, input.load (input.get (2 * i) (2 * j)) = some p1
            ∧ input.load (input.get (2 * i + 1) (2 * j)) = some p2
            ∧ input.load (input.get (2 * i) (2 * j + 1)) = some p3
            ∧ input.load (input.get (2 * i + 1) (2 * j + 1)) = some p4
            ∧ res.load (res.get i j) = some
                { R := if p1.R < p2.R then
                         (if p2.R < p3.R then (if p3.R < p4.R then p4.R else p3.R) else p2.R)
                       else p1.R
                  G := if p1.G < p2.G then
                         (if p2.G < p3.G then (if p3.G < p4.G then p4.G else p3.G) else p2.G)
                       else p1.G
                  B := if p1.B < p2.B then
                         (if p2.B < p3.B then (if p3.B < p4.B then p4.B else p3.B) else p2.B)
                       else p1.B
                  A := 255 } := by
  have hloads : ∀ i j, i < output.width → j < output.height →
      (2 * i % UINT_MOD = 2 * i ∧ (2 * i + 1) % UINT_MOD = 2 * i + 1
        ∧ 2 * j % UINT_MOD = 2 * j ∧ (2 * j + 1) % UINT_MOD = 2 * j + 1)
      ∧ input.load (input.get (2 * i) (2 * j)) = some (input.pixelAt (2 * i) (2 * j))
      ∧ input.load (input.get (2 * i + 1) (2 * j))
          = some (input.pixelAt (2 * i + 1) (2 * j))
      ∧ input.load (input.get (2 * i) (2 * j + 1))
          = some (input.pixelAt (2 * i) (2 * j + 1))
      ∧ input.load (input.get (2 * i + 1) (2 * j + 1))
          = some (input.pixelAt (2 * i + 1) (2 * j + 1)) := by
    intro i j hi hj
    have hx0 : 2 * i < input.width := by omega
    have hx1 : 2 * i + 1 < input.width := by omega
    have hy0 : 2 * j < input.height := by omega
    have hy1 : 2 * j + 1 < input.height := by omega
    obtain ⟨mx, my⟩ := Image.coord_lt hin hx1 hy1
    exact ⟨⟨Nat.mod_eq_of_lt (by omega), Nat.mod_eq_of_lt mx, Nat.mod_eq_of_lt (by omega),
        Nat.mod_eq_of_lt my⟩,
      Image.load_pixelAt hin hx0 hy0, Image.load_pixelAt hin hx1 hy0,
      Image.load_pixelAt hin hx0 hy1, Image.load_pixelAt hin hx1 hy1⟩
  obtain ⟨res, hrun, hrw, hrh, -, hcells⟩ := fill_spec output
    (fun i j out => do
      let p1 ← input.load (input.get (2 * i % UINT_MOD) (2 * j % UINT_MOD))
      let p2 ← input.load (input.get ((2 * i + 1) % UINT_MOD) (2 * j % UINT_MOD))
      let p3 ← input.load (input.get (2 * i % UINT_MOD) ((2 * j + 1) % UINT_MOD))
      let p4 ← input.load (input.get ((2 * i + 1) % UINT_MOD) ((2 * j + 1) % UINT_MOD))
      out.store (out.get i j)
        { R := if p1.R < p2.R then (if p2.R < p3.R then (if p3.R < p4.R then p4.R else p3.R)
                                    else p2.R)
               else p1.R
          G := if p1.G < p2.G then (if p2.G < p3.G then (if p3.G < p4.G then p4.G else p3.G)
                                    else p2.G)
               else p1.G
          B := if p1.B < p2.B then (if p2.B < p3.B then (if p3.B < p4.B then p4.B else p3.B)
                                    else p2.B)
               else p1.B
          A := 255 })
    (fun i j =>
      { R := if (input.pixelAt (2 * i) (2 * j)).R < (input.pixelAt (2 * i + 1) (2 * j)).R then
               (if (input.pixelAt (2 * i + 1) (2 * j)).R
                    < (input.pixelAt (2 * i) (2 * j + 1)).R then
                  (if (input.pixelAt (2 * i) (2 * j + 1)).R
                       < (input.pixelAt (2 * i + 1) (2 * j + 1)).R then
                     (input.pixelAt (2 * i + 1) (2 * j + 1)).R
                   else (input.pixelAt (2 * i) (2 * j + 1)).R)
                else (input.pixelAt (2 * i + 1) (2 * j)).R)
             else (input.pixelAt (2 * i) (2 * j)).R
        G := if (input.pixelAt (2 * i) (2 * j)).G < (input.pixelAt (2 * i + 1) (2 * j)).G then
               (if (input.pixelAt (2 * i + 1) (2 * j)).G
                    < (input.pixelAt (2 * i) (2 * j + 1)).G then
                  (if (input.pixelAt (2 * i) (2 * j + 1)).G
                       < (input.pixelAt (2 * i + 1) (2 * j + 1)).G then
                     (input.pixelAt (2 * i + 1) (2 * j + 1)).G
                   else (input.pixelAt (2 * i) (2 * j + 1)).G)
                else (input.pixelAt (2 * i + 1) (2 * j)).G)
             else (input.pixelAt (2 * i) (2 * j)).G
        B := if (input.pixelAt (2 * i) (2 * j)).B < (input.pixelAt (2 * i + 1) (2 * j)).B then
               (if (input.pixelAt (2 * i + 1) (2 * j)).B
                    < (input.pixelAt (2 * i) (2 * j + 1)).B then
                  (if (input.pixelAt (2 * i) (2 * j + 1)).B
                       < (input.pixelAt (2 * i + 1) (2 * j + 1)).B then
                     (input.pixelAt (2 * i + 1) (2 * j + 1)).B
                   else (input.pixelAt (2 * i) (2 * j + 1)).B)
                else (input.pixelAt (2 * i + 1) (2 * j)).B)
             else (input.pixelAt (2 * i) (2 * j)).B
        A := 255 })
    hout
    (by
      intro i j st hi hj
      obtain ⟨⟨m1, m2, m3, m4⟩, l1, l2, l3, l4⟩ := hloads i j hi hj
      simp only [m1, m2, m3, m4, l1, l2, l3, l4, Option.some_bind, bind])
  refine ⟨res, hrun, hrw, hrh, ?_⟩
  intro i j hi hj
  obtain ⟨-, l1, l2, l3, l4⟩ := hloads i j hi hj
  exact ⟨_, _, _, _, l1, l2, l3, l4, hcells i j hi hj⟩

/-! ## Rectify as a function of the ceiling -/

theorem clamp_mono_ceiling {v c1 c2 : Nat} (h : c1 ≤ c2) :
    clamp v c1 255 ≤ clamp v c2 255 := by
  unfold clamp
  split_ifs <;> omega

/-- C11, negation of the claim as stated: there are no well-formed image,
output buffers of its size, coordinate, channel and ceilings `c1 ≤ c2` for
which a channel of `rectify` with `c1` is strictly greater than the same
channel of `rectify` with `c2`. -/
theorem rectify_no_ceiling_inversion :
    ¬ ∃ (input out1 out2 : Image) (c1 c2 i j : Nat) (r1 r2 : Image) (p1 p2 : Pixel),
        input.wf ∧ out1.wf ∧ out2.wf
          ∧ out1.width = input.width ∧ out1.height = input.height
          ∧ out2.width = input.width ∧ out2.height = input.height
          ∧ c1 ≤ c2 ∧ i < input.width ∧ j < input.height
          ∧ rectify input out1 c1 = some r1 ∧ rectify input out2 c2 = some r2
          ∧ r1.load (r1.get i j) = some p1 ∧ r2.load (r2.get i j) = some p2
          ∧ (p1.R > p2.R ∨ p1.G > p2.G ∨ p1.B > p2.B) := by
  rintro ⟨input, out1, out2, c1, c2, i, j, r1, r2, p1, p2, hin, ho1, ho2, hw1, hh1, hw2, hh2,
    hc, hi, hj, hr1, hr2, hp1, hp2, hgt⟩
  obtain ⟨s1, hs1, -, -, hcells1⟩ :=
    rectify_cells input out1 c1 hin ho1 (le_of_eq hw1) (le_of_eq hh1)
  obtain ⟨s2, hs2, -, -, hcells2⟩ :=
    rectify_cells input out2 c2 hin ho2 (le_of_eq hw2) (le_of_eq hh2)
  have e1 : s1 = r1 := Option.some.inj (hs1.symm.trans hr1)
  have e2 : s2 = r2 := Option.some.inj (hs2.symm.trans hr2)
  subst e1 e2
  obtain ⟨pi, hpi, -, hq1⟩ := hcells1 i j (hw1 ▸ hi) (hh1 ▸ hj)
  obtain ⟨pi2, hpi2, -, hq2⟩ := hcells2 i j (hw2 ▸ hi) (hh2 ▸ hj)
  have e3 : pi = pi2 := Option.some.inj (hpi.symm.trans hpi2)
  subst e3
  have f1 := Option.some.inj (hq1.symm.trans hp1)
  have f2 := Option.some.inj (hq2.symm.trans hp2)
  subst f1 f2
  have mR : clamp pi.R c1 255 ≤ clamp pi.R c2 255 := clamp_mono_ceiling hc
  have mG : clamp pi.G c1 255 ≤ clamp pi.G c2 255 := clamp_mono_ceiling hc
  have mB : clamp pi.B c1 255 ≤ clamp pi.B c2 255 := clamp_mono_ceiling hc
  simp only [gt_iff_lt] at hgt
  omega

/-- C11, amended: `rectify` is monotone in the ceiling. For a well-formed
input, output buffers of its size and ceilings `c1 ≤ c2`, both calls return,
and at every coordinate each of R, G, B of the output for `c1` is at most the
same channel of the output for `c2`. -/
theorem rectify_ceiling_monotone (input out1 out2 : Image) (c1 c2 : Nat)
    (hin : input.wf) (ho1 : out1.wf) (ho2 : out2.wf)
    (hw1 : out1.width = input.width) (hh1 : out1.height = input.height)
    (hw2 : out2.width = input.width) (hh2 : out2.height = input.height)
    (hc : c1 ≤ c2) :
    ∃ r1 r2, rectify input out1 c1 = some r1 ∧ rectify input out2 c2 = some r2
      ∧ ∀ i j, i < input.width → j < input.height →
          ∃ p1 p2, r1.load (r1.get i j) = some p1 ∧ r2.load (r2.get i j) = some p2
            ∧ p1.R ≤ p2.R ∧ p1.G ≤ p2.G ∧ p1.B ≤ p2.B := by
  obtain ⟨r1, hr1, -, -, hcells1⟩ :=
    rectify_cells input out1 c1 hin ho1 (le_of_eq hw1) (le_of_eq hh1)
  obtain ⟨r2, hr2, -, -, hcells2⟩ :=
    rectify_cells input out2 c2 hin ho2 (le_of_eq hw2) (le_of_eq hh2)
  refine ⟨r1, r2, hr1, hr2, ?_⟩
  intro i j hi hj
  obtain ⟨pi, hpi, -, hq1⟩ := hcells1 i j (hw1 ▸ hi) (hh1 ▸ hj)
  obtain ⟨pi2, hpi2, -, hq2⟩ := hcells2 i j (hw2 ▸ hi) (hh2 ▸ hj)
  have e3 : pi = pi2 := Option.some.inj (hpi.symm.trans hpi2)
  subst e3
  exact ⟨_, _, hq1, hq2, clamp_mono_ceiling hc, clamp_mono_ceiling hc,
    clamp_mono_ceiling hc⟩

/-- Witness of the amended C11 on the 2x2 image `sampleA` with the ceilings
100 and 127. -/
theorem rectify_ceiling_monotone_witness :
    ∃ r1 r2, rectify sampleA scratch2x2 100 = some r1
      ∧ rectify sampleA scratch2x2b 127 = some r2
      ∧ ∀ i j, i < sampleA.width → j < sampleA.height →
          ∃ p1 p2, r1.load (r1.get i j) = some p1 ∧ r2.load (r2.get i j) = some p2
            ∧ p1.R ≤ p2.R ∧ p1.G ≤ p2.G ∧ p1.B ≤ p2.B :=
  rectify_ceiling_monotone sampleA scratch2x2 scratch2x2b 100 127 (by decide) (by decide)
    (by decide) rfl rfl rfl rfl (by decide)

/-! ## The coordinate map -/

/-- C13: for an image whose `width * height` is representable as a 32-bit
unsigned value, `Image.get` maps every in-range coordinate `(x, y)` to the
offset `x + y * width`, which is below `width * height`; distinct in-range
coordinates have distinct offsets; and every offset below `width * height` is
the offset of exactly one in-range coordinate. -/
theorem get_bijective (img : Image) (hrep : img.width * img.height < UINT_MOD) :
    (∀ x y, x < img.width → y < img.height →
        img.get x y = x + y * img.width ∧ img.get x y < img.width * img.height)
      ∧ (∀ x y x2 y2, x < img.width → y < img.height → x2 < img.width → y2 < img.height →
          img.get x y = img.get x2 y2 → x = x2 ∧ y = y2)
      ∧ (∀ n, n < img.width * img.height →
          ∃! c : Nat × Nat, c.1 < img.width ∧ c.2 < img.height ∧ img.get c.1 c.2 = n) := by
  have hget : ∀ x y, x < img.width → y < img.height →
      img.get x y = x + y * img.width ∧ img.get x y < img.width * img.height := by
    intro x y hx hy
    have hlt := offset_lt hx hy
    have hmod : (x + y * img.width) % UINT_MOD = x + y * img.width :=
      Nat.mod_eq_of_lt (lt_trans hlt hrep)
    unfold Image.get
    rw [hmod]
    exact ⟨rfl, hlt⟩
  have hinj : ∀ x y x2 y2, x < img.width → y < img.height → x2 < img.width →
      y2 < img.height → img.get x y = img.get x2 y2 → x = x2 ∧ y = y2 := by
    intro x y x2 y2 hx hy hx2 hy2 h
    rw [(hget x y hx hy).1, (hget x2 y2 hx2 hy2).1] at h
    exact offset_inj hx hx2 h
  refine ⟨hget, hinj, ?_⟩
  intro n hn
  have hw0 : 0 < img.width := by
    rcases Nat.eq_zero_or_pos img.width with h0 | h0
    · rw [h0] at hn; simp at hn
    · exact h0
  have hx : n % img.width < img.width := Nat.mod_lt n hw0
  have hy : n / img.width < img.height := by
    rw [Nat.div_lt_iff_lt_mul hw0, Nat.mul_comm]; exact hn
  have hsum : n % img.width + n / img.width * img.width = n := by
    rw [Nat.mul_comm]; exact Nat.mod_add_div n img.width
  refine ⟨(n % img.width, n / img.width), ⟨hx, hy, ?_⟩, ?_⟩
  · show img.get (n % img.width) (n / img.width) = n
    rw [(hget _ _ hx hy).1, hsum]
  · rintro ⟨a, b⟩ ⟨ha, hb, hab⟩
    have hab2 : img.get a b = img.get (n % img.width) (n / img.width) := by
      show img.get a b = _
      rw [(hget _ _ hx hy).1, hsum]; exact hab
    obtain ⟨e1, e2⟩ := hinj a b _ _ ha hb hx hy hab2
    show (a, b) = (n % img.width, n / img.width)
    rw [e1, e2]

/-- Witness of C13 on the 2x2 image `sampleA`. -/
theorem get_bijective_witness :
    (∀ x y, x < sampleA.width → y < sampleA.height →
        sampleA.get x y = x + y * sampleA.width
          ∧ sampleA.get x y < sampleA.width * sampleA.height)
      ∧ (∀ x y x2 y2, x < sampleA.width → y < sampleA.height →
          x2 < sampleA.width → y2 < sampleA.height →
          sampleA.get x y = sampleA.get x2 y2 → x = x2 ∧ y = y2)
      ∧ (∀ n, n < sampleA.width * sampleA.height →
          ∃! c : Nat × Nat, c.1 < sampleA.width ∧ c.2 < sampleA.height
            ∧ sampleA.get c.1 c.2 = n) :=
  get_bijective sampleA (by decide)

/-! ## Kernel calls -/

theorem KernelCall.run_eq_loops (k : KernelCall) (output : Image) :
    k.run output = forLoop output.width (fun i st =>
      forLoop output.height (fun j st => k.cell i j st) st) output := by
  cases k <;> rfl

/-- For a well-sized call the loop body at an in-range coordinate `(i, j)`
stores the pixel `value i j`, computed from the inputs alone, into the cell
`(i, j)` of the image it is given. -/
theorem KernelCall.cell_eq_store (k : KernelCall) (output : Image)
    (hs : k.wellSized output) (i j : Nat) (hi : i < output.width) (hj : j < output.height)
    (st : Image) : k.cell i j st = st.store (st.get i j) (k.value i j) := by
  cases k with
  | rectify input ceiling =>
    obtain ⟨hin, hw, hh⟩ := hs
    have hl := Image.load_pixelAt hin (hw ▸ hi) (hh ▸ hj)
    simp only [KernelCall.cell, KernelCall.value, rectifyCell, hl, Option.some_bind, bind]
  | pool input =>
    obtain ⟨hin, hw, hh⟩ := hs
    have hx1 : 2 * i + 1 < input.width := by omega
    have hy1 : 2 * j + 1 < input.height := by omega
    have hx0 : 2 * i < input.width := by omega
    have hy0 : 2 * j < input.height := by omega
    obtain ⟨mx, my⟩ := Image.coord_lt hin hx1 hy1
    have m1 : 2 * i % UINT_MOD = 2 * i := Nat.mod_eq_of_lt (by omega)
    have m2 : (2 * i + 1) % UINT_MOD = 2 * i + 1 := Nat.mod_eq_of_lt mx
    have m3 : 2 * j % UINT_MOD = 2 * j := Nat.mod_eq_of_lt (by omega)
    have m4 : (2 * j + 1) % UINT_MOD = 2 * j + 1 := Nat.mod_eq_of_lt my
    simp only [KernelCall.cell, KernelCall.value, poolCell, poolSelect, m1, m2, m3, m4,
      Image.load_pixelAt hin hx0 hy0, Image.load_pixelAt hin hx1 hy0,
      Image.load_pixelAt hin hx0 hy1, Image.load_pixelAt hin hx1 hy1, Option.some_bind, bind]
  | convolve input wm =>
    obtain ⟨hin, hw, hh⟩ := hs
    have hsum := convolveSums_eq input wm i j (convolve_reads hin (by omega) (by omega))
    simp only [KernelCall.cell, KernelCall.value, convolveCell, hsum, Option.some_bind, bind]
  | symmetric_difference input1 input2 =>
    obtain ⟨h1, h2, hw1, hh1, hw2, hh2⟩ := hs
    have hl1 := Image.load_pixelAt h1 (hw1 ▸ hi) (hh1 ▸ hj)
    have hl2 := Image.load_pixelAt h2 (hw2 ▸ hi) (hh2 ▸ hj)
    simp only [KernelCall.cell, KernelCall.value, symmetricDifferenceCell, hl1, hl2,
      Option.some_bind, bind]

/-- Every kernel writes alpha 255. -/
theorem KernelCall.value_alpha (k : KernelCall) (i j : Nat) : (k.value i j).A = 255 := by
  cases k <;> rfl

/-! ## Schedules -/

theorem foldlM_flatMap {α β σ : Type} (l : List α) (g : α → List β)
    (body : σ → β → Option σ) (s : σ) :
    (l.flatMap g).foldlM body s = l.foldlM (fun st a => (g a).foldlM body st) s := by
  induction l generalizing s with
  | nil => rfl
  | cons a l ih =>
    rw [List.flatMap_cons, List.foldlM_append, List.foldlM_cons]
    cases h : (g a).foldlM body s with
    | none => rfl
    | some st => exact ih st

/-- The sequential kernel is the schedule `grid`. -/
theorem KernelCall.run_eq_runSchedule (k : KernelCall) (output : Image) :
    k.run output = k.runSchedule (grid output.width output.height) output := by
  rw [KernelCall.run_eq_loops]
  unfold KernelCall.runSchedule grid forLoop
  rw [foldlM_flatMap]
  congr 1
  funext st i
  rw [List.foldlM_map]

/-- Running the slices of the workers one after the other is the schedule
that lists the workers' coordinates in that order. -/
theorem KernelCall.runSlices_eq_runSchedule (k : KernelCall) (slices : List (Nat × Nat))
    (output : Image) :
    k.runSlices slices output
      = k.runSchedule (slices.flatMap (workerCells output.height)) output := by
  unfold KernelCall.runSlices KernelCall.runSchedule
  rw [foldlM_flatMap]
  congr 1
  funext st s
  unfold forRange workerCells forLoop
  rw [foldlM_flatMap]
  congr 1
  funext st2 i
  rw [List.foldlM_map]

theorem mem_grid {w h i j : Nat} : (i, j) ∈ grid w h ↔ i < w ∧ j < h := by
  simp [grid]

theorem mem_workerCells {h : Nat} {s : Nat × Nat} {i j : Nat} :
    (i, j) ∈ workerCells h s ↔ (s.1 ≤ i ∧ i < s.2) ∧ j < h := by
  simp only [workerCells, List.mem_flatMap, List.mem_map, List.mem_range, List.mem_range',
    Prod.mk.injEq]
  constructor
  · rintro ⟨a, ⟨m, hm, rfl⟩, b, hb, rfl, rfl⟩
    omega
  · rintro ⟨⟨h1, h2⟩, h3⟩
    exact ⟨i, ⟨i - s.1, by omega, by omega⟩, j, h3, rfl, rfl⟩

/-- Executing, in the order of any list `sched` of in-range coordinates, a
loop body that stores `f i j` into cell `(i, j)`: the run returns an image of
the same dimensions in which every cell listed in `sched` holds `f i j` and
every other cell is unchanged. -/
theorem schedule_spec (w h : Nat) (hrep : w * h < UINT_MOD)
    (body : Nat → Nat → Image → Option Image) (f : Nat → Nat → Pixel)
    (hbody : ∀ i j st, i < w → j < h → body i j st = st.store (st.get i j) (f i j))
    (sched : List (Nat × Nat)) (hin : ∀ c ∈ sched, c.1 < w ∧ c.2 < h)
    (st : Image) (hw : st.width = w) (hh : st.height = h) (hlen : st.raw.length = w * h) :
    ∃ res, sched.foldlM (fun s c => body c.1 c.2 s) st = some res
      ∧ res.width = w ∧ res.height = h ∧ res.raw.length = w * h
      ∧ ∀ i j, i < w → j < h →
          res.raw[i + j * w]? = if (i, j) ∈ sched then some (f i j) else st.raw[i + j * w]? := by
  induction sched generalizing st with
  | nil =>
    refine ⟨st, rfl, hw, hh, hlen, ?_⟩
    intro i j _ _
    simp
  | cons c cs ih =>
    obtain ⟨ci, cj⟩ := c
    have hci : ci < w := (hin (ci, cj) (List.mem_cons_self _ _)).1
    have hcj : cj < h := (hin (ci, cj) (List.mem_cons_self _ _)).2
    have swf : st.wf := ⟨by rw [hw, hh]; exact hrep, by rw [hlen, hw, hh]⟩
    have hget := Image.get_eq swf (hw ▸ hci) (hh ▸ hcj)
    rw [hw] at hget
    have hidx : ci + cj * w < st.raw.length := by
      have := hget.2; rw [hget.1] at this; exact this
    have hstep : body ci cj st = some
        { width := st.width, height := st.height,
          raw := st.raw.set (ci + cj * w) (f ci cj) } := by
      rw [hbody ci cj st hci hcj, hget.1]
      simp [Image.store, hidx]
    obtain ⟨res, hrun, hrw, hrh, hrlen, hcells⟩ :=
      ih (fun c hc => hin c (List.mem_cons_of_mem _ hc))
        { width := st.width, height := st.height,
          raw := st.raw.set (ci + cj * w) (f ci cj) }
        hw hh (by simp [hlen])
    refine ⟨res, ?_, hrw, hrh, hrlen, ?_⟩
    · rw [List.foldlM_cons]
      show (body ci cj st).bind _ = some res
      rw [hstep]
      exact hrun
    · intro i j hi hj
      rw [hcells i j hi hj]
      by_cases hmem : (i, j) ∈ cs
      · rw [if_pos hmem, if_pos (List.mem_cons_of_mem _ hmem)]
      · rw [if_neg hmem]
        by_cases heq : (i, j) = (ci, cj)
        · obtain ⟨rfl, rfl⟩ := Prod.mk.inj heq
          rw [if_pos (List.mem_cons_self _ _)]
          show (st.raw.set (i + j * w) (f i j))[i + j * w]? = _
          rw [List.getElem?_set_self hidx]
        · have hne : ci + cj * w ≠ i + j * w := by
            intro hoff
            obtain ⟨e1, e2⟩ := offset_inj hci hi hoff
            exact heq (by rw [e1, e2])
          have hnm : (i, j) ∉ (ci, cj) :: cs := by
            intro hm
            rcases List.mem_cons.mp hm with h1 | h1
            · exact heq h1
            · exact hmem h1
          rw [if_neg hnm]
          show (st.raw.set (ci + cj * w) (f ci cj))[i + j * w]? = _
          rw [List.getElem?_set_ne hne]

/-- Two executions of a well-sized call, under schedules that each list
in-range coordinates only and list every coordinate of the output, on output
buffers of the same dimensions, return the same image: the one that holds
`value i j` at every cell `(i, j)`. -/
theorem KernelCall.runSchedule_agree (k : KernelCall) (out1 out2 : Image)
    (hs : k.wellSized out1) (ho1 : out1.wf) (ho2 : out2.wf)
    (hw : out2.width = out1.width) (hh : out2.height = out1.height)
    (s1 s2 : List (Nat × Nat))
    (hin1 : ∀ c ∈ s1, c.1 < out1.width ∧ c.2 < out1.height)
    (hin2 : ∀ c ∈ s2, c.1 < out1.width ∧ c.2 < out1.height)
    (hcov1 : ∀ i j, i < out1.width → j < out1.height → (i, j) ∈ s1)
    (hcov2 : ∀ i j, i < out1.width → j < out1.height → (i, j) ∈ s2) :
    ∃ res, k.runSchedule s1 out1 = some res ∧ k.runSchedule s2 out2 = some res
      ∧ res.width = out1.width ∧ res.height = out1.height ∧ res.wf
      ∧ ∀ i j, i < out1.width → j < out1.height →
          res.load (res.get i j) = some (k.value i j) := by
  have hbody : ∀ i j st, i < out1.width → j < out1.height →
      k.cell i j st = st.store (st.get i j) (k.value i j) :=
    fun i j st hi hj => k.cell_eq_store out1 hs i j hi hj st
  obtain ⟨r1, hr1, hw1, hh1, hl1, hc1⟩ :=
    schedule_spec out1.width out1.height ho1.1 k.cell k.value hbody s1 hin1 out1 rfl rfl ho1.2
  obtain ⟨r2, hr2, hw2, hh2, hl2, hc2⟩ :=
    schedule_spec out1.width out1.height ho1.1 k.cell k.value hbody s2 hin2 out2 hw hh
      (by rw [ho2.2, hw, hh])
  have wf1 : r1.wf := ⟨by rw [hw1, hh1]; exact ho1.1, by rw [hl1, hw1, hh1]⟩
  have wf2 : r2.wf := ⟨by rw [hw2, hh2]; exact ho1.1, by rw [hl2, hw2, hh2]⟩
  have cell1 : ∀ i j, i < out1.width → j < out1.height →
      r1.load (r1.get i j) = some (k.value i j) := by
    intro i j hi hj
    have hg := (Image.get_eq wf1 (hw1 ▸ hi) (hh1 ▸ hj)).1
    unfold Image.load
    rw [hg, hw1, hc1 i j hi hj, if_pos (hcov1 i j hi hj)]
  have cell2 : ∀ i j, i < out1.width → j < out1.height →
      r2.load (r2.get i j) = some (k.value i j) := by
    intro i j hi hj
    have hg := (Image.get_eq wf2 (hw2 ▸ hi) (hh2 ▸ hj)).1
    unfold Image.load
    rw [hg, hw2, hc2 i j hi hj, if_pos (hcov2 i j hi hj)]
  have heq : r2 = r1 := by
    apply Image.ext_cells wf2 wf1 (hw2.trans hw1.symm) (hh2.trans hh1.symm)
    intro i j hi hj
    rw [hw2] at hi
    rw [hh2] at hj
    rw [cell1 i j hi hj, cell2 i j hi hj]
  refine ⟨r1, hr1, ?_, hw1, hh1, wf1, cell1⟩
  rw [← heq]
  exact hr2

theorem slicesOf_lower (lens : List Nat) (a : Nat) :
    ∀ s ∈ slicesOf a lens, a ≤ s.1 ∧ s.1 ≤ s.2 ∧ s.2 ≤ a + lens.sum := by
  induction lens generalizing a with
  | nil => intro s hs; simp [slicesOf] at hs
  | cons len rest ih =>
    intro s hs
    simp only [slicesOf, List.mem_cons] at hs
    rcases hs with rfl | hs
    · simp only [List.sum_cons]; omega
    · have := ih (a + len) s hs
      simp only [List.sum_cons]; omega

/-- In the slices of lengths `lens` laid end to end from `a`, every column of
`a .. a + sum - 1` lies in exactly one slice. -/
theorem slicesOf_owner (lens : List Nat) (a i : Nat) (h1 : a ≤ i) (h2 : i < a + lens.sum) :
    ((slicesOf a lens).filter (fun s => decide (s.1 ≤ i ∧ i < s.2))).length = 1 := by
  induction lens generalizing a with
  | nil => simp at h2; omega
  | cons len rest ih =>
    simp only [List.sum_cons] at h2
    simp only [slicesOf]
    by_cases hlt : i < a + len
    · have hnil : (slicesOf (a + len) rest).filter (fun s => decide (s.1 ≤ i ∧ i < s.2)) = [] := by
        rw [List.filter_eq_nil_iff]
        intro s hs
        have := slicesOf_lower rest (a + len) s hs
        simp only [decide_eq_true_eq]
        omega
      rw [List.filter_cons_of_pos (by simp only [decide_eq_true_eq]; omega), hnil]
      rfl
    · rw [List.filter_cons_of_neg (by simp only [decide_eq_true_eq]; omega)]
      exact ih (a + len) (by omega) (by omega)

/-- The coordinates of the workers of the slices of lengths `lens`, listed
worker after worker, are the coordinates of the columns
`a .. a + sum - 1` in sequential order. -/
theorem workerCells_slicesOf (lens : List Nat) (a h : Nat) :
    (slicesOf a lens).flatMap (workerCells h)
      = (List.range' a lens.sum).flatMap (fun i => (List.range h).map (fun j => (i, j))) := by
  induction lens generalizing a with
  | nil => simp [slicesOf]
  | cons len rest ih =>
    simp only [slicesOf, List.flatMap_cons, List.sum_cons]
    rw [ih (a + len), Nat.add_comm len rest.sum, ← List.range'_append_1 a len rest.sum,
      List.flatMap_append]
    simp [workerCells]

/-- In a list without repetition, a member occurs exactly once. -/
theorem occurs_once {l : List (Nat × Nat)} {a : Nat × Nat} (hnd : l.Nodup) (hm : a ∈ l) :
    (l.filter (fun c => decide (c = a))).length = 1 := by
  induction l with
  | nil => simp at hm
  | cons x xs ih =>
    obtain ⟨hx, hxs⟩ := List.nodup_cons.mp hnd
    by_cases hxa : x = a
    · subst hxa
      have hnil : xs.filter (fun c => decide (c = x)) = [] := by
        rw [List.filter_eq_nil_iff]
        intro c hc
        simp only [decide_eq_true_eq]
        intro hcx
        exact hx (hcx ▸ hc)
      rw [List.filter_cons_of_pos (by simp), hnil]
      rfl
    · rw [List.filter_cons_of_neg (by simp only [decide_eq_true_eq]; exact hxa)]
      rcases List.mem_cons.mp hm with h1 | h1
      · exact absurd h1.symm hxa
      · exact ih hxs h1

theorem grid_nodup (w h : Nat) : (grid w h).Nodup := by
  have hprod : grid w h = List.product (List.range w) (List.range h) := rfl
  rw [hprod]
  exact List.Nodup.product (List.nodup_range w) (List.nodup_range h)

/-- C12: for any of the four kernels called on a correctly sized output, the
call returns, and it returns the same image whatever the output buffer held
before: every cell `(i, j)` of the output holds the pixel computed from the
input(s) for `(i, j)`, and that pixel has alpha 255 whatever the input
alpha. -/
theorem kernels_fill_output (k : KernelCall) (out1 out2 : Image)
    (hs : k.wellSized out1) (ho1 : out1.wf) (ho2 : out2.wf)
    (hw : out2.width = out1.width) (hh : out2.height = out1.height) :
    ∃ res, k.run out1 = some res ∧ k.run out2 = some res
      ∧ res.width = out1.width ∧ res.height = out1.height
      ∧ ∀ i j, i < out1.width → j < out1.height →
          ∃ po, res.load (res.get i j) = some po ∧ po = k.value i j ∧ po.A = 255 := by
  obtain ⟨res, h1, h2, hrw, hrh, -, hcells⟩ :=
    k.runSchedule_agree out1 out2 hs ho1 ho2 hw hh
      (grid out1.width out1.height) (grid out1.width out1.height)
      (fun c hc => mem_grid.mp hc) (fun c hc => mem_grid.mp hc)
      (fun i j hi hj => mem_grid.mpr ⟨hi, hj⟩) (fun i j hi hj => mem_grid.mpr ⟨hi, hj⟩)
  refine ⟨res, ?_, ?_, hrw, hrh, ?_⟩
  · rw [KernelCall.run_eq_runSchedule]; exact h1
  · rw [KernelCall.run_eq_runSchedule, hw, hh]; exact h2
  · intro i j hi hj
    exact ⟨_, hcells i j hi hj, rfl, k.value_alpha i j⟩

/-- Witness of C12 on `pool` of the 4x4 white image, with two 2x2 output
buffers of different previous content. -/
theorem kernels_fill_output_witness :
    ∃ res, (KernelCall.pool white4x4).run scratch2x2 = some res
      ∧ (KernelCall.pool white4x4).run scratch2x2b = some res
      ∧ res.width = scratch2x2.width ∧ res.height = scratch2x2.height
      ∧ ∀ i j, i < scratch2x2.width → j < scratch2x2.height →
          ∃ po, res.load (res.get i j) = some po
            ∧ po = (KernelCall.pool white4x4).value i j ∧ po.A = 255 :=
  kernels_fill_output (KernelCall.pool white4x4) scratch2x2 scratch2x2b (by decide)
    (by decide) (by decide) rfl rfl

/-- C14: for a well-sized call, any split of the column range
`0 .. width-1` into contiguous slices of lengths `lens`, with the workers
taking effect in any order (`slices` is a rearrangement of the slices), and
any schedule `sched` in which every output coordinate occurs once, the
sliced execution and the scheduled execution return the image the sequential
loops return; every column has exactly one owning slice and every cell is
written exactly once. -/
theorem schedule_independent (k : KernelCall) (output : Image) (lens : List Nat)
    (slices sched : List (Nat × Nat))
    (hs : k.wellSized output) (ho : output.wf)
    (hsum : lens.sum = output.width) (hslices : slices.Perm (slicesOf 0 lens))
    (hsched : sched.Perm (grid output.width output.height)) :
    ∃ res, k.run output = some res
      ∧ k.runSlices slices output = some res
      ∧ k.runSchedule sched output = some res
      ∧ (∀ i, i < output.width →
          (slices.filter (fun s => decide (s.1 ≤ i ∧ i < s.2))).length = 1)
      ∧ (∀ i j, i < output.width → j < output.height →
          ((slices.flatMap (workerCells output.height)).filter
              (fun c => decide (c = (i, j)))).length = 1
            ∧ (sched.filter (fun c => decide (c = (i, j)))).length = 1) := by
  have hgin : ∀ c ∈ grid output.width output.height, c.1 < output.width ∧ c.2 < output.height :=
    fun c hc => mem_grid.mp hc
  have hgcov : ∀ i j, i < output.width → j < output.height →
      (i, j) ∈ grid output.width output.height := fun i j hi hj => mem_grid.mpr ⟨hi, hj⟩
  have howner : ∀ i, i < output.width →
      (slices.filter (fun s => decide (s.1 ≤ i ∧ i < s.2))).length = 1 := by
    intro i hi
    rw [(hslices.filter _).length_eq]
    exact slicesOf_owner lens 0 i (Nat.zero_le i) (by omega)
  -- the coordinates of the workers
  have hwin : ∀ c ∈ slices.flatMap (workerCells output.height),
      c.1 < output.width ∧ c.2 < output.height := by
    rintro ⟨i, j⟩ hc
    obtain ⟨s, hsm, hcm⟩ := List.mem_flatMap.mp hc
    have hb := slicesOf_lower lens 0 s (hslices.mem_iff.mp hsm)
    obtain ⟨⟨h1, h2⟩, h3⟩ := mem_workerCells.mp hcm
    exact ⟨by show i < output.width; omega, h3⟩
  have hwcov : ∀ i j, i < output.width → j < output.height →
      (i, j) ∈ slices.flatMap (workerCells output.height) := by
    intro i j hi hj
    have hne : slices.filter (fun s => decide (s.1 ≤ i ∧ i < s.2)) ≠ [] := by
      intro hnil
      have := howner i hi
      rw [hnil] at this
      exact absurd this (by decide)
    obtain ⟨s, hsf⟩ := List.exists_mem_of_ne_nil _ hne
    obtain ⟨hsm, hp⟩ := List.mem_filter.mp hsf
    simp only [decide_eq_true_eq] at hp
    exact List.mem_flatMap.mpr ⟨s, hsm, mem_workerCells.mpr ⟨hp, hj⟩⟩
  obtain ⟨res, h1, h2, -, -, -, -⟩ :=
    k.runSchedule_agree output output hs ho ho rfl rfl
      (grid output.width output.height) (slices.flatMap (workerCells output.height))
      hgin hwin hgcov hwcov
  obtain ⟨res2, g1, g2, -, -, -, -⟩ :=
    k.runSchedule_agree output output hs ho ho rfl rfl
      (grid output.width output.height) sched
      hgin (fun c hc => mem_grid.mp (hsched.mem_iff.mp hc)) hgcov
      (fun i j hi hj => hsched.mem_iff.mpr (mem_grid.mpr ⟨hi, hj⟩))
  have hres : res2 = res := Option.some.inj (g1.symm.trans h1)
  subst hres
  refine ⟨res2, ?_, ?_, g2, howner, ?_⟩
  · rw [KernelCall.run_eq_runSchedule]; exact h1
  · rw [KernelCall.runSlices_eq_runSchedule]; exact h2
  · intro i j hi hj
    have hworkers : (slices.flatMap (workerCells output.height)).Perm
        (grid output.width output.height) := by
      have hp := List.Perm.flatMap_right (workerCells output.height) hslices
      rw [workerCells_slicesOf, hsum, ← List.range_eq_range'] at hp
      exact hp
    constructor
    · rw [(hworkers.filter _).length_eq]
      exact occurs_once (grid_nodup _ _) (mem_grid.mpr ⟨hi, hj⟩)
    · rw [(hsched.filter _).length_eq]
      exact occurs_once (grid_nodup _ _) (mem_grid.mpr ⟨hi, hj⟩)

/-- Witness of C14 on `rectify` with ceiling 10 of a 4x4 image: four workers
owning 2, 1, 0 and 1 columns and taking effect in a rotated order, and the
schedule that visits the cells in the reverse of the sequential order. -/
theorem schedule_independent_witness :
    ∃ res, (KernelCall.rectify scratch4x4 10).run white4x4 = some res
      ∧ (KernelCall.rectify scratch4x4 10).runSlices [(3, 4), (3, 3), (0, 2), (2, 3)] white4x4
          = some res
      ∧ (KernelCall.rectify scratch4x4 10).runSchedule (grid 4 4).reverse white4x4 = some res
      ∧ (∀ i, i < white4x4.width →
          ([(3, 4), (3, 3), (0, 2), (2, 3)].filter
            (fun s : Nat × Nat => decide (s.1 ≤ i ∧ i < s.2))).length = 1)
      ∧ (∀ i j, i < white4x4.width → j < white4x4.height →
          (([(3, 4), (3, 3), (0, 2), (2, 3)].flatMap (workerCells white4x4.height)).filter
              (fun c => decide (c = (i, j)))).length = 1
            ∧ ((grid 4 4).reverse.filter (fun c => decide (c = (i, j)))).length = 1) :=
  schedule_independent (KernelCall.rectify scratch4x4 10) white4x4 [2, 1, 0, 1]
    [(3, 4), (3, 3), (0, 2), (2, 3)] (grid 4 4).reverse (by decide) (by decide) (by decide)
    (by decide) (List.reverse_perm _)

/-! ## The dispatcher's outputs -/

theorem Image.new_wf {w h : Nat} (fill : Nat → Pixel) (hrep : w * h < UINT_MOD) :
    (Image.new w h fill).wf := by
  unfold Image.wf Image.new
  simp only [List.length_map, List.length_range]
  exact ⟨hrep, Nat.mod_eq_of_lt hrep⟩

theorem Image.load_mem {img : Image} {n : Nat} {p : Pixel} (h : img.load n = some p) :
    p ∈ img.raw :=
  List.getElem?_mem h

theorem half_product_lt {w h : Nat} (hrep : w * h < UINT_MOD) :
    (w / 2) * (h / 2) < UINT_MOD :=
  lt_of_le_of_lt (Nat.mul_le_mul (Nat.div_le_self w 2) (Nat.div_le_self h 2)) hrep

theorem dispatch_rectification (input : Image) (w : Nat → Nat → F32) (fill : Nat → Pixel) :
    dispatch "rectification" input w fill
      = rectify input (Image.new input.width input.height fill) 127 := by
  unfold dispatch
  rw [if_pos rfl]

theorem dispatch_max_pooling (input : Image) (w : Nat → Nat → F32) (fill : Nat → Pixel) :
    dispatch "max-pooling" input w fill
      = pool input (Image.new (input.width / 2) (input.height / 2) fill) := by
  unfold dispatch
  rw [if_neg (by decide), if_pos rfl]

/-- C15: for a well-formed W x H image whose pixels are all white
`(255, 255, 255, 255)`, `rectify` with ceiling 127 (the `rectification` branch
of `main`) returns a W x H output whose pixels are all white, and `pool` (the
`max-pooling` branch) returns a floor(W/2) x floor(H/2) output whose pixels
are all white. -/
theorem white_stays_white (input : Image) (w : Nat → Nat → F32) (fill : Nat → Pixel)
    (hin : input.wf) (hwhite : ∀ p ∈ input.raw, p = white) :
    (∃ res, rectify input (Image.new input.width input.height fill) 127 = some res
        ∧ dispatch "rectification" input w fill = some res
        ∧ res.width = input.width ∧ res.height = input.height
        ∧ ∀ i j, i < input.width → j < input.height →
            res.load (res.get i j) = some white)
      ∧ (∃ res, pool input (Image.new (input.width / 2) (input.height / 2) fill) = some res
        ∧ dispatch "max-pooling" input w fill = some res
        ∧ res.width = input.width / 2 ∧ res.height = input.height / 2
        ∧ ∀ i j, i < input.width / 2 → j < input.height / 2 →
            res.load (res.get i j) = some white) := by
  constructor
  · obtain ⟨res, hrun, hrw, hrh, hcells⟩ :=
      rectify_cells input (Image.new input.width input.height fill) 127 hin
        (Image.new_wf fill hin.1) (le_refl _) (le_refl _)
    refine ⟨res, hrun, by rw [dispatch_rectification]; exact hrun, hrw, hrh, ?_⟩
    intro i j hi hj
    obtain ⟨pi, -, hmem, hpo⟩ := hcells i j hi hj
    rw [hpo, hwhite pi hmem]
    rfl
  · obtain ⟨res, hrun, hrw, hrh, hcells⟩ :=
      pool_cells input (Image.new (input.width / 2) (input.height / 2) fill) hin
        (Image.new_wf fill (half_product_lt hin.1))
        (Nat.mul_div_le input.width 2) (Nat.mul_div_le input.height 2)
    refine ⟨res, hrun, by rw [dispatch_max_pooling]; exact hrun, hrw, hrh, ?_⟩
    intro i j hi hj
    obtain ⟨p1, p2, p3, p4, h1, h2, h3, h4, hpo⟩ := hcells i j hi hj
    rw [hpo, hwhite p1 (Image.load_mem h1), hwhite p2 (Image.load_mem h2),
      hwhite p3 (Image.load_mem h3), hwhite p4 (Image.load_mem h4)]
    rfl

/-- Witness of C15 on the 4x4 white image. -/
theorem white_stays_white_witness :
    (∃ res, rectify white4x4 (Image.new white4x4.width white4x4.height (fun n => px n n n n))
          127 = some res
        ∧ dispatch "rectification" white4x4 centreKernel (fun n => px n n n n) = some res
        ∧ res.width = white4x4.width ∧ res.height = white4x4.height
        ∧ ∀ i j, i < white4x4.width → j < white4x4.height →
            res.load (res.get i j) = some white)
      ∧ (∃ res, pool white4x4
            (Image.new (white4x4.width / 2) (white4x4.height / 2) (fun n => px n n n n))
          = some res
        ∧ dispatch "max-pooling" white4x4 centreKernel (fun n => px n n n n) = some res
        ∧ res.width = white4x4.width / 2 ∧ res.height = white4x4.height / 2
        ∧ ∀ i j, i < white4x4.width / 2 → j < white4x4.height / 2 →
            res.load (res.get i j) = some white) :=
  white_stays_white white4x4 centreKernel (fun n => px n n n n) (by decide) (by decide)

/-! ## Reads stay inside the input -/

/-- C16: for a well-formed W x H input (W or H possibly odd) and the output
of floor(W/2) x floor(H/2) that `main` allocates, the coordinates `pool`
computes do not wrap, each of its four reads `(x, y)` for an output
coordinate has `x < 2 * floor(W/2) ≤ W` and `y < 2 * floor(H/2) ≤ H`, so a
trailing odd column or row is never read, its offset is `x + y * W`, below
`W * H`, the read succeeds, and `pool` returns. -/
theorem pool_reads_in_bounds (input : Image) (fill : Nat → Pixel) (hin : input.wf) :
    (∀ i j, i < input.width / 2 → j < input.height / 2 →
        (2 * i % UINT_MOD = 2 * i ∧ (2 * i + 1) % UINT_MOD = 2 * i + 1
          ∧ 2 * j % UINT_MOD = 2 * j ∧ (2 * j + 1) % UINT_MOD = 2 * j + 1)
        ∧ ∀ x ∈ [2 * i, 2 * i + 1], ∀ y ∈ [2 * j, 2 * j + 1],
            x < 2 * (input.width / 2) ∧ x < input.width
              ∧ y < 2 * (input.height / 2) ∧ y < input.height
              ∧ input.get x y = x + y * input.width
              ∧ input.get x y < input.width * input.height
              ∧ (input.load (input.get x y)).isSome)
      ∧ ∃ res, pool input (Image.new (input.width / 2) (input.height / 2) fill) = some res
          ∧ res.width = input.width / 2 ∧ res.height = input.height / 2 := by
  constructor
  · intro i j hi hj
    have hx1 : 2 * i + 1 < input.width := by omega
    have hy1 : 2 * j + 1 < input.height := by omega
    obtain ⟨mx, my⟩ := Image.coord_lt hin hx1 hy1
    refine ⟨⟨Nat.mod_eq_of_lt (by omega), Nat.mod_eq_of_lt mx, Nat.mod_eq_of_lt (by omega),
      Nat.mod_eq_of_lt my⟩, ?_⟩
    intro x hx y hy
    simp only [List.mem_cons, List.mem_singleton, List.not_mem_nil, or_false] at hx hy
    have hxw : x < input.width := by omega
    have hyh : y < input.height := by omega
    obtain ⟨hg, hlt⟩ := Image.get_eq hin hxw hyh
    obtain ⟨p, hp, -⟩ := Image.load_isSome hin hxw hyh
    refine ⟨by omega, hxw, by omega, hyh, hg, ?_, ?_⟩
    · rw [← hin.2]; exact hlt
    · rw [hp]; rfl
  · obtain ⟨res, hrun, hrw, hrh, -⟩ :=
      pool_cells input (Image.new (input.width / 2) (input.height / 2) fill) hin
        (Image.new_wf fill (half_product_lt hin.1))
        (Nat.mul_div_le input.width 2) (Nat.mul_div_le input.height 2)
    exact ⟨res, hrun, hrw, hrh⟩

/-- Witness of C16 on a 3x3 image: the output is 1x1 and the third column and
row are not read. -/
theorem pool_reads_in_bounds_witness :
    (∀ i j, i < sample3x3.width / 2 → j < sample3x3.height / 2 →
        (2 * i % UINT_MOD = 2 * i ∧ (2 * i + 1) % UINT_MOD = 2 * i + 1
          ∧ 2 * j % UINT_MOD = 2 * j ∧ (2 * j + 1) % UINT_MOD = 2 * j + 1)
        ∧ ∀ x ∈ [2 * i, 2 * i + 1], ∀ y ∈ [2 * j, 2 * j + 1],
            x < 2 * (sample3x3.width / 2) ∧ x < sample3x3.width
              ∧ y < 2 * (sample3x3.height / 2) ∧ y < sample3x3.height
              ∧ sample3x3.get x y = x + y * sample3x3.width
              ∧ sample3x3.get x y < sample3x3.width * sample3x3.height
              ∧ (sample3x3.load (sample3x3.get x y)).isSome)
      ∧ ∃ res, pool sample3x3
            (Image.new (sample3x3.width / 2) (sample3x3.height / 2) (fun n => px n n n n))
          = some res
          ∧ res.width = sample3x3.width / 2 ∧ res.height = sample3x3.height / 2 :=
  pool_reads_in_bounds sample3x3 (fun n => px n n n n) (by decide)

/-- C17: for a well-formed W x H input with W ≥ 2 and H ≥ 2 and an output of
size (W-2) x (H-2), the coordinates of every neighbourhood read of
`convolve` do not wrap, satisfy `i + k < W` and `j + l < H`, the offset is
`(i+k) + (j+l) * W`, below `W * H`, the read succeeds, and `convolve`
returns. -/
theorem convolve_reads_in_bounds (input output : Image) (wm : Nat → Nat → F32)
    (hin : input.wf) (hout : output.wf)
    (hW : 2 ≤ input.width) (hH : 2 ≤ input.height)
    (hw : output.width = input.width - 2) (hh : output.height = input.height - 2) :
    (∀ i j, i < input.width - 2 → j < input.height - 2 → ∀ k l, k < 3 → l < 3 →
        (i + k) % UINT_MOD = i + k ∧ (j + l) % UINT_MOD = j + l
          ∧ i + k < input.width ∧ j + l < input.height
          ∧ input.get (i + k) (j + l) = (i + k) + (j + l) * input.width
          ∧ input.get (i + k) (j + l) < input.width * input.height
          ∧ (input.load (input.get ((i + k) % UINT_MOD) ((j + l) % UINT_MOD))).isSome)
      ∧ ∃ res, convolve input output wm = some res
          ∧ res.width = output.width ∧ res.height = output.height := by
  constructor
  · intro i j hi hj k l hk hl
    have hx : i + k < input.width := by omega
    have hy : j + l < input.height := by omega
    obtain ⟨mx, my⟩ := Image.coord_lt hin hx hy
    obtain ⟨hg, hlt⟩ := Image.get_eq hin hx hy
    obtain ⟨p, hp, -⟩ := Image.load_isSome hin hx hy
    refine ⟨Nat.mod_eq_of_lt mx, Nat.mod_eq_of_lt my, hx, hy, hg, ?_, ?_⟩
    · rw [← hin.2]; exact hlt
    · rw [Nat.mod_eq_of_lt mx, Nat.mod_eq_of_lt my, hp]; rfl
  · obtain ⟨res, hrun, hrw, hrh, -⟩ :=
      convolve_cells input output wm hin hout (by omega) (by omega)
    exact ⟨res, hrun, hrw, hrh⟩

/-- Witness of C17 on the 3x3 image `sample3x3` with a 1x1 output. -/
theorem convolve_reads_in_bounds_witness :
    (∀ i j, i < sample3x3.width - 2 → j < sample3x3.height - 2 → ∀ k l, k < 3 → l < 3 →
        (i + k) % UINT_MOD = i + k ∧ (j + l) % UINT_MOD = j + l
          ∧ i + k < sample3x3.width ∧ j + l < sample3x3.height
          ∧ sample3x3.get (i + k) (j + l) = (i + k) + (j + l) * sample3x3.width
          ∧ sample3x3.get (i + k) (j + l) < sample3x3.width * sample3x3.height
          ∧ (sample3x3.load
              (sample3x3.get ((i + k) % UINT_MOD) ((j + l) % UINT_MOD))).isSome)
      ∧ ∃ res, convolve sample3x3 scratch1x1 centreKernel = some res
          ∧ res.width = scratch1x1.width ∧ res.height = scratch1x1.height :=
  convolve_reads_in_bounds sample3x3 scratch1x1 centreKernel (by decide) (by decide)
    (by decide) (by decide) rfl rfl

/-! ## The size of the convolution output -/

theorem usub_two {a : Nat} (ha : a < UINT_MOD) :
    (2 ≤ a → ((usub a 2 : Nat) : Int) = (a : Int) - 2)
      ∧ (a < 2 → ((usub a 2 : Nat) : Int) = (a : Int) - 2 + 4294967296) := by
  unfold usub
  unfold UINT_MOD at ha ⊢
  norm_num at ha ⊢
  omega

/-- C18, counterexample: for a decoded input of width 1 and height 5 the
convolution branch of `main` asks for an output of width 4294967295, which is
not 1 - 2. -/
theorem convolution_size_wraps :
    outputSize "convolution" 1 5 = some (4294967295, 3)
      ∧ (4294967295 : Int) ≠ (1 : Int) - 2 := by
  decide

/-- C18, amended: for a decoded input of width W and height H (32-bit
unsigned values) the convolution branch of `main` allocates an output whose
width is W - 2 modulo `2 ^ 32`: exactly W - 2 when W ≥ 2, and
W - 2 + `2 ^ 32` when W < 2; and likewise for the height. -/
theorem convolution_output_size (input : Image) (w : Nat → Nat → F32) (fill : Nat → Pixel)
    (hW : input.width < UINT_MOD) (hH : input.height < UINT_MOD) :
    dispatch "convolution" input w fill
        = convolve input (Image.new (usub input.width 2) (usub input.height 2) fill) w
      ∧ outputSize "convolution" input.width input.height
        = some (usub input.width 2, usub input.height 2)
      ∧ (Image.new (usub input.width 2) (usub input.height 2) fill).width = usub input.width 2
      ∧ (Image.new (usub input.width 2) (usub input.height 2) fill).height
          = usub input.height 2
      ∧ (2 ≤ input.width → ((usub input.width 2 : Nat) : Int) = (input.width : Int) - 2)
      ∧ (input.width < 2 →
          ((usub input.width 2 : Nat) : Int) = (input.width : Int) - 2 + 4294967296)
      ∧ (2 ≤ input.height → ((usub input.height 2 : Nat) : Int) = (input.height : Int) - 2)
      ∧ (input.height < 2 →
          ((usub input.height 2 : Nat) : Int) = (input.height : Int) - 2 + 4294967296) := by
  refine ⟨?_, ?_, rfl, rfl, (usub_two hW).1, (usub_two hW).2, (usub_two hH).1,
    (usub_two hH).2⟩
  · unfold dispatch
    rw [if_neg (by decide), if_neg (by decide), if_pos rfl]
  · unfold outputSize
    rw [if_neg (by decide), if_neg (by decide), if_pos rfl]

/-- Witness of the amended C18 on the 2x1 image `wide2x1`, whose height is
below 2. -/
theorem convolution_output_size_witness :
    dispatch "convolution" wide2x1 centreKernel (fun n => px n n n n)
        = convolve wide2x1
            (Image.new (usub wide2x1.width 2) (usub wide2x1.height 2) (fun n => px n n n n))
            centreKernel
      ∧ outputSize "convolution" wide2x1.width wide2x1.height
        = some (usub wide2x1.width 2, usub wide2x1.height 2)
      ∧ (Image.new (usub wide2x1.width 2) (usub wide2x1.height 2)
            (fun n => px n n n n)).width = usub wide2x1.width 2
      ∧ (Image.new (usub wide2x1.width 2) (usub wide2x1.height 2)
            (fun n => px n n n n)).height = usub wide2x1.height 2
      ∧ (2 ≤ wide2x1.width → ((usub wide2x1.width 2 : Nat) : Int) = (wide2x1.width : Int) - 2)
      ∧ (wide2x1.width < 2 →
          ((usub wide2x1.width 2 : Nat) : Int) = (wide2x1.width : Int) - 2 + 4294967296)
      ∧ (2 ≤ wide2x1.height →
          ((usub wide2x1.height 2 : Nat) : Int) = (wide2x1.height : Int) - 2)
      ∧ (wide2x1.height < 2 →
          ((usub wide2x1.height 2 : Nat) : Int) = (wide2x1.height : Int) - 2 + 4294967296) :=
  convolution_output_size wide2x1 centreKernel (fun n => px n n n n) (by decide) (by decide)

/-! ## The thread count -/

/-- C19, evaluation at failing inputs: with only OPERATION, INPUT_FILE and
OUTPUT_FILE the variable `threads` is `atoi` of the output file name, 0 for
`out.png` and 8 for `8.png`; with THREADCOUNT 4 supplied as well it is still
`atoi` of the output file name, 0. -/
theorem threads_from_output_name :
    mainThreads ["ass1_omp", "rectification", "in.png", "out.png"] = some 0
      ∧ mainThreads ["ass1_omp", "rectification", "in.png", "8.png"] = some 8
      ∧ mainThreads ["ass1_omp", "rectification", "in.png", "out.png", "4"] = some 0 := by
  decide

/-! ## The two rectify implementations -/

/-- Called with the length of the buffer as count, the byte-wise `rectify`
returns the buffer with every byte `b` replaced by `b` if `b > 127` and by
127 otherwise. -/
theorem rectify_omp_map (image : List Nat) :
    rectify_omp.rectify (image.length : Int) image
      = some (image.map (fun b => if b > 127 then b else 127)) := by
  let g : Nat → Nat := fun b => if b > 127 then b else 127
  let P : Nat → List Nat → Prop := fun i l =>
    l.length = image.length
      ∧ ∀ m, l[m]? = if m < i then (image[m]?).map g else image[m]?
  have h0 : P 0 image := ⟨rfl, fun m => by simp⟩
  have hstep : ∀ i l, i < image.length → P i l →
      ∃ l2, (do let b ← l[i]?
                pure (l.set i (if b > 127 then b else 127)) : Option (List Nat)) = some l2
        ∧ P (i + 1) l2 := by
    intro i l hi ⟨hlen, hcells⟩
    have hli : l[i]? = some image[i] := by
      rw [hcells i, if_neg (Nat.lt_irrefl i), List.getElem?_eq_getElem hi]
    refine ⟨l.set i (g image[i]), by rw [hli]; rfl, by simp [hlen], ?_⟩
    intro m
    by_cases hmi : m = i
    · subst hmi
      rw [List.getElem?_set_self (by omega), if_pos (Nat.lt_succ_self m),
        List.getElem?_eq_getElem hi]
      rfl
    · rw [List.getElem?_set_ne (fun h => hmi h.symm), hcells m]
      by_cases hlt : m < i
      · rw [if_pos hlt, if_pos (by omega)]
      · rw [if_neg hlt, if_neg (by omega)]
  obtain ⟨res, hrun, -, hcells⟩ := forLoop_inv P image.length _ image h0 hstep
  have hres : res = image.map g := by
    apply List.ext_getElem?
    intro m
    rw [hcells m, List.getElem?_map]
    by_cases hlt : m < image.length
    · rw [if_pos hlt]
    · rw [if_neg hlt, List.getElem?_eq_none (by omega)]
      rfl
  unfold rectify_omp.rectify
  rw [Int.toNat_ofNat, hrun, hres]

theorem bytes_length (raw : List Pixel) :
    (raw.flatMap (fun p => [p.R, p.G, p.B, p.A])).length = 4 * raw.length := by
  induction raw with
  | nil => rfl
  | cons q qs ih =>
    rw [List.flatMap_cons, List.length_append, ih, List.length_cons]
    simp only [List.length_cons, List.length_nil]
    omega

/-- The four bytes of pixel `n` of a buffer are at the offsets `4 n` to
`4 n + 3` of its byte view, in the order R, G, B, A. -/
theorem bytes_getElem (raw : List Pixel) (n : Nat) (p : Pixel) (h : raw[n]? = some p) :
    (raw.flatMap (fun p => [p.R, p.G, p.B, p.A]))[4 * n]? = some p.R
      ∧ (raw.flatMap (fun p => [p.R, p.G, p.B, p.A]))[4 * n + 1]? = some p.G
      ∧ (raw.flatMap (fun p => [p.R, p.G, p.B, p.A]))[4 * n + 2]? = some p.B
      ∧ (raw.flatMap (fun p => [p.R, p.G, p.B, p.A]))[4 * n + 3]? = some p.A := by
  induction raw generalizing n with
  | nil => simp at h
  | cons q qs ih =>
    cases n with
    | zero =>
      simp only [List.getElem?_cons_zero, Option.some.injEq] at h
      subst h
      simp [List.flatMap_cons]
    | succ m =>
      simp only [List.getElem?_cons_succ] at h
      obtain ⟨h0, h1, h2, h3⟩ := ih m h
      have shift : ∀ k, ((q :: qs).flatMap (fun p => [p.R, p.G, p.B, p.A]))[k + 4]?
          = (qs.flatMap (fun p => [p.R, p.G, p.B, p.A]))[k]? := by
        intro k
        simp [List.flatMap_cons]
      refine ⟨?_, ?_, ?_, ?_⟩
      · rw [show 4 * (m + 1) = 4 * m + 4 by ring, shift]; exact h0
      · rw [show 4 * (m + 1) + 1 = 4 * m + 1 + 4 by ring, shift]; exact h1
      · rw [show 4 * (m + 1) + 2 = 4 * m + 2 + 4 by ring, shift]; exact h2
      · rw [show 4 * (m + 1) + 3 = 4 * m + 3 + 4 by ring, shift]; exact h3

theorem toInt_count {n : Nat} (h : n < 2 ^ 31) : toInt (n % UINT_MOD) = (n : Int) := by
  have hm : n % UINT_MOD = n := Nat.mod_eq_of_lt (by unfold UINT_MOD; omega)
  unfold toInt
  rw [hm, hm, if_pos h]

theorem byte_rule_eq_clamp {v : Nat} (hv : v ≤ 255) :
    (if v > 127 then v else 127) = clamp v 127 255
      ∧ (if v > 127 then v else 127) = max v 127 := by
  unfold clamp
  split_ifs <;> omega

/-- With a byte count from `2 ^ 31` to `2 ^ 32 - 1` the `int` parameter
`count` of the byte-wise `rectify` is negative, its loop runs no iteration
and `process` leaves every byte as it was. -/
theorem process_unchanged (image : List Nat) (width height : Nat)
    (h1 : 2 ^ 31 ≤ width * height * 4) (h2 : width * height * 4 < 2 ^ 32) :
    rectify_omp.process image width height = some image := by
  have hm : width * height * 4 % UINT_MOD = width * height * 4 :=
    Nat.mod_eq_of_lt (by unfold UINT_MOD; exact h2)
  have hneg : (toInt (width * height * 4 % UINT_MOD)).toNat = 0 := by
    unfold toInt
    rw [hm, hm, if_neg (by omega)]
    unfold UINT_MOD
    omega
  unfold rectify_omp.process rectify_omp.rectify
  rw [hneg]
  exact forLoop_zero _ _

/-- C20, counterexample: on the bytes of the image of `2 ^ 29` black pixels
(`2 ^ 31` bytes) the byte-wise rectify of `rectify_omp.c` returns the bytes
unchanged, so the red byte of the first pixel stays 0, while the pixel-wise
`rectify` with ceiling 127 writes red 127 there. -/
theorem rectify_omp_skips_large_buffer :
    bigBlack.wf ∧ bigBlack.pixelsOk
      ∧ rectify_omp.process bigBlack.bytes bigBlack.width bigBlack.height
          = some bigBlack.bytes
      ∧ bigBlack.bytes[4 * bigBlack.get 0 0]? = some 0
      ∧ ∃ res, rectify bigBlack
            (Image.new bigBlack.width bigBlack.height (fun _ => px 0 0 0 0)) 127 = some res
          ∧ res.load (res.get 0 0) = some (px 127 127 127 255) := by
  have hwf : bigBlack.wf := by
    refine ⟨?_, ?_⟩
    · show 2 ^ 29 * 1 < UINT_MOD
      decide
    · show (List.replicate (2 ^ 29) (px 0 0 0 255)).length = 2 ^ 29 * 1
      rw [List.length_replicate, Nat.mul_one]
  have hblack : ∀ p ∈ bigBlack.raw, p = px 0 0 0 255 := by
    intro p hp
    exact List.eq_of_mem_replicate hp
  have hpx : bigBlack.pixelsOk := by
    intro p hp
    rw [hblack p hp]
    decide
  have hfirst : bigBlack.raw[bigBlack.get 0 0]? = some (px 0 0 0 255) := by
    have hg : bigBlack.get 0 0 = 0 := by decide
    rw [hg]
    show (List.replicate (2 ^ 29) (px 0 0 0 255))[0]? = _
    rw [List.getElem?_replicate, if_pos (by decide)]
  refine ⟨hwf, hpx, ?_, ?_, ?_⟩
  · exact process_unchanged _ _ _ (by decide) (by decide)
  · exact (bytes_getElem bigBlack.raw (bigBlack.get 0 0) (px 0 0 0 255) hfirst).1
  · obtain ⟨res, hrun, -, -, hcells⟩ :=
      rectify_cells bigBlack (Image.new bigBlack.width bigBlack.height (fun _ => px 0 0 0 0))
        127 hwf (Image.new_wf _ hwf.1) (le_refl _) (le_refl _)
    refine ⟨res, hrun, ?_⟩
    obtain ⟨pi, -, hmem, hpo⟩ := hcells 0 0 (by decide) (by decide)
    rw [hpo, hblack pi hmem]
    rfl

/-- C20, amended: for a well-formed image with 8-bit channels whose byte
count `W * H * 4` is below `2 ^ 31`, the byte-wise rectify of `rectify_omp.c`
on the image's bytes and the pixel-wise `rectify` with ceiling 127 both
return; at
every pixel the R, G and B bytes of the former equal the channels of the
latter; the alpha byte of the former is `max(A, 127)`, that of the latter is
255, and the two are equal exactly when the input alpha is 255. -/
theorem rectify_versions_agree (input output : Image)
    (hin : input.wf) (hout : output.wf) (hpx : input.pixelsOk)
    (hw : output.width = input.width) (hh : output.height = input.height)
    (hcount : input.width * input.height * 4 < 2 ^ 31) :
    ∃ bytes res, rectify_omp.process input.bytes input.width input.height = some bytes
      ∧ rectify input output 127 = some res
      ∧ bytes.length = input.width * input.height * 4
      ∧ ∀ i j, i < input.width → j < input.height →
          ∃ pi po, input.load (input.get i j) = some pi
            ∧ res.load (res.get i j) = some po
            ∧ input.get i j = i + j * input.width
            ∧ bytes[4 * input.get i j]? = some po.R
            ∧ bytes[4 * input.get i j + 1]? = some po.G
            ∧ bytes[4 * input.get i j + 2]? = some po.B
            ∧ bytes[4 * input.get i j + 3]? = some (max pi.A 127)
            ∧ po.A = 255
            ∧ (bytes[4 * input.get i j + 3]? = some po.A ↔ pi.A = 255) := by
  obtain ⟨res, hrun, hrw, hrh, hcells⟩ :=
    rectify_cells input output 127 hin hout (le_of_eq hw) (le_of_eq hh)
  have hlen : input.bytes.length = input.width * input.height * 4 := by
    unfold Image.bytes
    rw [bytes_length, hin.2]
    ring
  have hproc : rectify_omp.process input.bytes input.width input.height
      = some (input.bytes.map (fun b => if b > 127 then b else 127)) := by
    unfold rectify_omp.process
    rw [toInt_count hcount, ← hlen]
    exact rectify_omp_map input.bytes
  refine ⟨_, res, hproc, hrun, by rw [List.length_map, hlen], ?_⟩
  intro i j hi hj
  obtain ⟨pi, hpi, hmem, hpo⟩ := hcells i j (hw ▸ hi) (hh ▸ hj)
  obtain ⟨hR, hG, hB, hA⟩ := hpx pi hmem
  obtain ⟨b0, b1, b2, b3⟩ := bytes_getElem input.raw (input.get i j) pi hpi
  have c0 : (input.bytes.map (fun b => if b > 127 then b else 127))[4 * input.get i j]?
      = some (clamp pi.R 127 255) := by
    rw [List.getElem?_map]
    unfold Image.bytes
    rw [b0, Option.map_some', (byte_rule_eq_clamp hR).1]
  have c1 : (input.bytes.map (fun b => if b > 127 then b else 127))[4 * input.get i j + 1]?
      = some (clamp pi.G 127 255) := by
    rw [List.getElem?_map]
    unfold Image.bytes
    rw [b1, Option.map_some', (byte_rule_eq_clamp hG).1]
  have c2 : (input.bytes.map (fun b => if b > 127 then b else 127))[4 * input.get i j + 2]?
      = some (clamp pi.B 127 255) := by
    rw [List.getElem?_map]
    unfold Image.bytes
    rw [b2, Option.map_some', (byte_rule_eq_clamp hB).1]
  have c3 : (input.bytes.map (fun b => if b > 127 then b else 127))[4 * input.get i j + 3]?
      = some (max pi.A 127) := by
    rw [List.getElem?_map]
    unfold Image.bytes
    rw [b3, Option.map_some', (byte_rule_eq_clamp hA).2]
  refine ⟨pi, _, hpi, hpo, (Image.get_eq hin hi hj).1, c0, c1, c2, c3, rfl, ?_⟩
  rw [c3]
  show some (max pi.A 127) = some 255 ↔ pi.A = 255
  rw [Option.some.injEq]
  omega

/-- Witness of the amended C20 on the 2x2 image `sampleA`. -/
theorem rectify_versions_agree_witness :
    ∃ bytes res, rectify_omp.process sampleA.bytes sampleA.width sampleA.height = some bytes
      ∧ rectify sampleA scratch2x2 127 = some res
      ∧ bytes.length = sampleA.width * sampleA.height * 4
      ∧ ∀ i j, i < sampleA.width → j < sampleA.height →
          ∃ pi po, sampleA.load (sampleA.get i j) = some pi
            ∧ res.load (res.get i j) = some po
            ∧ sampleA.get i j = i + j * sampleA.width
            ∧ bytes[4 * sampleA.get i j]? = some po.R
            ∧ bytes[4 * sampleA.get i j + 1]? = some po.G
            ∧ bytes[4 * sampleA.get i j + 2]? = some po.B
            ∧ bytes[4 * sampleA.get i j + 3]? = some (max pi.A 127)
            ∧ po.A = 255
            ∧ (bytes[4 * sampleA.get i j + 3]? = some po.A ↔ pi.A = 255) :=
  rectify_versions_agree sampleA scratch2x2 (by decide) (by decide) (by decide) rfl rfl
    (by decide)

end ECSE420
